import Mathlib

/-!
Verification development for the bytecache repository.

Part A embeds `src/history.rs`: a `Bucket` wraps a set of keys together with
an incrementally maintained `usage` aggregate; a `History` keeps a ring of
generation buckets between the distinguished `nextBucket` and `oldBucket`.
Keys carry their own cost, mirroring the `RequiredBytes` trait: every
operation takes the cost function `rb : α → Nat` as an explicit argument.

Part B embeds `src/mem.rs` (`MemCache`).  `mem.rs` is written against a
`History` with explicit per-call costs (`hit(key, cost)`, `clear`, a spill
of `(key, cost)` pairs) that is absent from the sources; that variant is
modelled from the spec below (`MBucket`, `MHistory`).
-/

set_option autoImplicit false
set_option linter.unusedSectionVars false

namespace ByteCache

variable {α : Type} [DecidableEq α]

/-- Embeds `Bucket<K>` from `src/history.rs`: a `HashSet<K>` (as a
duplicate-free list) plus the running `usage` aggregate. -/
structure Bucket (α : Type) where
  items : List α
  usage : Nat
deriving DecidableEq

/-- Source `Bucket::new`. -/
def Bucket.new : Bucket α := ⟨[], 0⟩

/-- Source `Bucket::insert`: `usage += value.required_bytes(); items.insert(value)`.
The usage is incremented whether or not the item was already present;
the `HashSet` keeps the old element when it is. -/
def Bucket.insert (rb : α → Nat) (b : Bucket α) (k : α) : Bucket α :=
  { items := if k ∈ b.items then b.items else k :: b.items
    usage := b.usage + rb k }

/-- Source `Bucket::remove`: adjusts usage only when the item was present. -/
def Bucket.remove (rb : α → Nat) (b : Bucket α) (k : α) : Bucket α :=
  if k ∈ b.items then
    { items := b.items.erase k, usage := b.usage - rb k }
  else b

/-- Source `Bucket::clear`. -/
def Bucket.clear (_ : Bucket α) : Bucket α := ⟨[], 0⟩

/-- Source `Extend for Bucket<K>`: repeated insert. -/
def Bucket.extend (rb : α → Nat) (b : Bucket α) (l : List α) : Bucket α :=
  l.foldl (Bucket.insert rb) b

/-- Embeds `History<K>` from `src/history.rs`.  `buckets` is the
`VecDeque` ring, front (oldest sealed generation) at the head. -/
structure History (α : Type) where
  maxBucketUsage : Nat
  bucketCount : Nat
  nextBucket : Bucket α
  oldBucket : Bucket α
  buckets : List (Bucket α)
deriving DecidableEq

/-- Source `History::new(max_bucket_usage, bucket_count)`. -/
def History.new (m c : Nat) : History α :=
  ⟨m, c, Bucket.new, Bucket.new, []⟩

/-- Source `History::dig_out`: scan the ring and remove the key from the first
bucket that holds it.  The `old` bucket is not scanned. -/
def digOut (rb : α → Nat) : List (Bucket α) → α → List (Bucket α)
  | [], _ => []
  | b :: bs, k =>
    if k ∈ b.items then b.remove rb k :: bs else b :: digOut rb bs k

/-- Source `History::burry_bucket`: when the ring is full, pop the front bucket,
drain it into `old` and recycle it (cleared) as the new `next`; otherwise a
fresh bucket is used.  The sealed `next` is pushed at the back of the ring.
(The `[]` branch of the full-ring case is unreachable whenever
`bucketCount ≥ 1`; in the source it would panic on `unwrap`.) -/
def History.burryBucket (rb : α → Nat) (h : History α) : History α :=
  if h.bucketCount ≤ h.buckets.length then
    match h.buckets with
    | [] => h
    | o :: rest =>
      { h with
        oldBucket := h.oldBucket.extend rb o.items
        buckets := rest ++ [h.nextBucket]
        nextBucket := Bucket.new }
  else
    { h with
      buckets := h.buckets ++ [h.nextBucket]
      nextBucket := Bucket.new }

/-- Source `History::hit`: no-op when the key is already in `next`; otherwise
dig it out of the ring, insert it into `next`, and rotate when `next`
reaches the threshold. -/
def History.hit (rb : α → Nat) (h : History α) (k : α) : History α :=
  if k ∈ h.nextBucket.items then h
  else
    let h1 : History α := { h with buckets := digOut rb h.buckets k }
    let h2 : History α := { h1 with nextBucket := h1.nextBucket.insert rb k }
    if h2.maxBucketUsage ≤ h2.nextBucket.usage then h2.burryBucket rb else h2

/-- Source `History::remove`: remove from `next` if present there, otherwise dig
out of the ring.  The `old` bucket is never touched. -/
def History.remove (rb : α → Nat) (h : History α) (k : α) : History α :=
  if k ∈ h.nextBucket.items then
    { h with nextBucket := h.nextBucket.remove rb k }
  else
    { h with buckets := digOut rb h.buckets k }

/-- Source `History::spill`: hand the whole content of `old` to the collector and
clear `old`. -/
def History.spill (h : History α) : List α × History α :=
  (h.oldBucket.items, { h with oldBucket := Bucket.new })

/-- Source `History::detailed_usage`: `old` first, ring buckets oldest first,
`next` last. -/
def History.detailedUsage (h : History α) : List Nat :=
  h.oldBucket.usage :: (h.buckets.map Bucket.usage ++ [h.nextBucket.usage])

/-- Source `History::usage`: total across `old`, the ring and `next`. -/
def History.usage (h : History α) : Nat :=
  h.oldBucket.usage + ((h.buckets.map Bucket.usage).sum + h.nextBucket.usage)

/-- The `History` operations a client may issue. -/
inductive HOp (α : Type) where
  | hit : α → HOp α
  | rem : α → HOp α
  | spill : HOp α

/-- One step of the `History` state machine. -/
def stepH (rb : α → Nat) (h : History α) : HOp α → History α
  | .hit k => h.hit rb k
  | .rem k => h.remove rb k
  | .spill => h.spill.2

/-- Run a sequence of operations from a fresh `History::new m c`. -/
def runH (rb : α → Nat) (m c : Nat) (ops : List (HOp α)) : History α :=
  ops.foldl (stepH rb) (History.new m c)

/-- Test keys: `(num, usage)` pairs with the cost in the second component,
mirroring the `Val` struct of the repository's tests. -/
def rbv : Nat × Nat → Nat := fun p => p.2

example :
    (runH rbv 2 2 [HOp.hit (1, 2), HOp.hit (2, 2), HOp.hit (3, 2)]).detailedUsage
      = [2, 2, 2, 0] := by decide

example :
    (runH rbv 2 2 [HOp.hit (1, 2), HOp.hit (2, 2), HOp.hit (3, 2)]).usage = 6 := by decide

example :
    (runH rbv 2 2 [HOp.hit (1, 2), HOp.hit (2, 2), HOp.hit (3, 2)]).spill.1
      = [(1, 2)] := by decide

example :
    ((runH rbv 2 2 [HOp.hit (1, 2), HOp.hit (2, 2), HOp.hit (3, 2)]).spill.2).detailedUsage
      = [0, 2, 2, 0] := by decide

example :
    (1, 1) ∈ (runH rbv 2 1 [HOp.hit (1, 1), HOp.hit (2, 1), HOp.hit (3, 1),
      HOp.hit (4, 1), HOp.hit (1, 1)]).oldBucket.items ∧
    (1, 1) ∈ (runH rbv 2 1 [HOp.hit (1, 1), HOp.hit (2, 1), HOp.hit (3, 1),
      HOp.hit (4, 1), HOp.hit (1, 1)]).nextBucket.items := by decide

/-! ## Part B: the cost-carrying history and `MemCache` (`src/mem.rs`)

`src/mem.rs` drives a `History` whose API takes explicit costs
(`hit(key, cost)`, `remove(key)`, `clear()`, `spill` delivering
`(key, cost)` pairs, `detailed_usage` with capacities); that version of
`history.rs` is not among the sources, so it is modelled from the spec
here.  `MemCache` itself is embedded from `src/mem.rs`. -/

/-- Look up the first entry for a key in an association list. -/
def lookupA {β : Type} : List (α × β) → α → Option β
  | [], _ => none
  | (a, b) :: t, k => if a = k then some b else lookupA t k

/-- Remove the first entry for a key from an association list. -/
def removeA {β : Type} : List (α × β) → α → List (α × β)
  | [], _ => []
  | (a, b) :: t, k => if a = k then t else (a, b) :: removeA t k

/-- The keys of an association list, in order. -/
def keysA {β : Type} (l : List (α × β)) : List α := l.map Prod.fst

/-- Modelled from the spec: the `Bucket` used by the cost-carrying
`History` that `src/mem.rs` calls into (missing from the sources): a
mapping from key to size cost plus the running `usage` aggregate. -/
structure MBucket (α : Type) where
  entries : List (α × Nat)
  usage : Nat
deriving DecidableEq

/-- Modelled from the spec: the empty map bucket. -/
def MBucket.new : MBucket α := ⟨[], 0⟩

/-- Modelled from the spec: upsert — an already-present key has its cost
replaced and `usage` adjusted by the delta. -/
def MBucket.insert (b : MBucket α) (k : α) (c : Nat) : MBucket α :=
  match lookupA b.entries k with
  | some cOld => ⟨(k, c) :: removeA b.entries k, b.usage - cOld + c⟩
  | none => ⟨(k, c) :: b.entries, b.usage + c⟩

/-- Modelled from the spec: remove a key, adjusting `usage` only when it
was present. -/
def MBucket.remove (b : MBucket α) (k : α) : MBucket α :=
  match lookupA b.entries k with
  | some c => ⟨removeA b.entries k, b.usage - c⟩
  | none => b

/-- Modelled from the spec: bulk upsert. -/
def MBucket.extend (b : MBucket α) (l : List (α × Nat)) : MBucket α :=
  l.foldl (fun b p => b.insert p.1 p.2) b

/-- Modelled from the spec: the cost-carrying `History` consumed by
`src/mem.rs` (missing from the sources): `next`, the ring of sealed
generations (oldest first) and `old`. -/
structure MHistory (α : Type) where
  maxGen : Nat
  genCount : Nat
  next : MBucket α
  ring : List (MBucket α)
  old : MBucket α
deriving DecidableEq

/-- Modelled from the spec: a fresh history. -/
def MHistory.new (m c : Nat) : MHistory α := ⟨m, c, MBucket.new, [], MBucket.new⟩

/-- Modelled from the spec: generation rotation — with a full ring the
oldest sealed bucket is drained into `old` and recycled; the sealed
`next` goes to the back of the ring and a cleared bucket becomes `next`. -/
def MHistory.rotate (h : MHistory α) : MHistory α :=
  if h.genCount ≤ h.ring.length then
    match h.ring with
    | [] => { h with ring := [h.next], next := MBucket.new }
    | o :: rest =>
      { h with
        old := h.old.extend o.entries
        ring := rest ++ [h.next]
        next := MBucket.new }
  else
    { h with ring := h.ring ++ [h.next], next := MBucket.new }

/-- Modelled from the spec: `hit(key, cost)` — a key in `next` with the
same cost is a no-op; a key in `next` with a different cost is updated in
place; otherwise the key is removed from wherever it lives (`old` or any
ring bucket) and inserted into `next`, rotating when `next` reaches the
threshold (after-insert policy). -/
def MHistory.hit (h : MHistory α) (k : α) (c : Nat) : MHistory α :=
  match lookupA h.next.entries k with
  | some cOld => if cOld = c then h else { h with next := h.next.insert k c }
  | none =>
    let h1 : MHistory α :=
      { h with
        ring := h.ring.map (fun b => b.remove k)
        old := h.old.remove k }
    let h2 : MHistory α := { h1 with next := h1.next.insert k c }
    if h2.maxGen ≤ h2.next.usage then h2.rotate else h2

/-- Modelled from the spec: `remove(key)` deletes the key from whichever
of `next`, ring, `old` holds it. -/
def MHistory.remove (h : MHistory α) (k : α) : MHistory α :=
  { h with
    next := h.next.remove k
    ring := h.ring.map (fun b => b.remove k)
    old := h.old.remove k }

/-- Modelled from the spec: `spill` hands the whole content of `old` to
the collector and clears `old`. -/
def MHistory.spill (h : MHistory α) : List (α × Nat) × MHistory α :=
  (h.old.entries, { h with old := MBucket.new })

/-- Modelled from the spec: reset of the whole history (`clear`, called
by `MemCache::clear`). -/
def MHistory.clear (h : MHistory α) : MHistory α :=
  { h with next := MBucket.new, ring := [], old := MBucket.new }

/-- Modelled from the spec: total usage across `old`, the ring and `next`. -/
def MHistory.usage (h : MHistory α) : Nat :=
  h.old.usage + ((h.ring.map MBucket.usage).sum + h.next.usage)

/-- Source `StoreResult` from `src/lib.rs`. -/
inductive StoreResult where
  | stored : StoreResult
  | outOfMemory : StoreResult
deriving DecidableEq

/-- Upsert into the value map (`HashMap::insert` replaces). -/
def insertV (l : List (α × List Nat)) (k : α) (v : List Nat) :
    List (α × List Nat) :=
  (k, v) :: removeA l k

/-- Embeds `MemCache<K>` from `src/mem.rs`: a byte budget, the history
and the authoritative value map (values are byte lists, cost = length). -/
structure MemCache (α : Type) where
  limit : Nat
  history : MHistory α
  items : List (α × List Nat)
deriving DecidableEq

/-- Source `MemCache::new(limit)`: per-generation threshold `limit / 5`
(minimum 1), ring length fixed at 2. -/
def MemCache.new (limit : Nat) : MemCache α :=
  ⟨limit, MHistory.new (if limit / 5 = 0 then 1 else limit / 5) 2, []⟩

/-- Source `MemCache::usage`. -/
def MemCache.usage (c : MemCache α) : Nat := c.history.usage

/-- Source `MemCache::can_store_bytes`. -/
def MemCache.canStoreBytes (c : MemCache α) (amount : Nat) : Prop :=
  c.usage + amount ≤ c.limit

instance (c : MemCache α) (amount : Nat) : Decidable (c.canStoreBytes amount) :=
  inferInstanceAs (Decidable (_ ≤ _))

/-- Source `MemCache::free_memory`: when the request does not fit, spill `old`
once, delete every spilled key from the value map, and re-check.  (The
source's loop runs its body exactly once: `spilled` is cleared right
before the `spilled.len() == 0` test, so that test always succeeds.) -/
def MemCache.freeMemory (c : MemCache α) (required : Nat) :
    Bool × MemCache α :=
  if c.canStoreBytes required then (true, c)
  else
    let spilled := c.history.spill.1
    let c1 : MemCache α :=
      { c with
        history := c.history.spill.2
        items := spilled.foldl (fun it p => removeA it p.1) c.items }
    if c1.canStoreBytes required then (true, c1) else (false, c1)

/-- The marginal memory `MemCache::set` asks `free_memory` for: the new
value's size minus the existing value's size, 0 when shrinking (computed
before any eviction). -/
def realRequired (c : MemCache α) (k : α) (v : List Nat) : Nat :=
  match lookupA c.items k with
  | some w => if v.length ≤ w.length then 0 else v.length - w.length
  | none => v.length

/-- Source `MemCache::set`: marginal cost is the new size minus the existing
size (0 when shrinking); on failed freeing the key is purged from both
maps and `OutOfMemory` returned; on success the value is upserted and the
history hit with the full new cost. -/
def MemCache.set (c : MemCache α) (k : α) (v : List Nat) :
    StoreResult × MemCache α :=
  let newReq := v.length
  let fr := c.freeMemory (realRequired c k v)
  if fr.1 then
    (StoreResult.stored,
      { fr.2 with
        items := insertV fr.2.items k v
        history := fr.2.history.hit k newReq })
  else
    match lookupA fr.2.items k with
    | some _ =>
      (StoreResult.outOfMemory,
        { fr.2 with
          items := removeA fr.2.items k
          history := fr.2.history.remove k })
    | none => (StoreResult.outOfMemory, fr.2)

/-- The state `MemCache::free_memory` reaches when the request does not
fit at once: `old` spilled out of the history, every spilled key deleted
from the value map. -/
def spillSt (c : MemCache α) : MemCache α :=
  { c with
    history := c.history.spill.2
    items := c.history.old.entries.foldl (fun it p => removeA it p.1) c.items }

/-- Source `MemCache::get`: a found value is re-hit with its current size. -/
def MemCache.get (c : MemCache α) (k : α) :
    Option (List Nat) × MemCache α :=
  match lookupA c.items k with
  | some v => (some v, { c with history := c.history.hit k v.length })
  | none => (none, c)

/-- Source `MemCache::clear`. -/
def MemCache.clear (c : MemCache α) : MemCache α :=
  { c with items := [], history := c.history.clear }

/-- The `MemCache` operations a client may issue. -/
inductive MOp (α : Type) where
  | set : α → List Nat → MOp α
  | get : α → MOp α
  | clear : MOp α

/-- One step of the `MemCache` state machine. -/
def stepM (c : MemCache α) : MOp α → MemCache α
  | .set k v => (c.set k v).2
  | .get k => (c.get k).2
  | .clear => c.clear

/-- Run a sequence of operations from a fresh `MemCache::new limit`. -/
def runM (limit : Nat) (ops : List (MOp α)) : MemCache α :=
  ops.foldl stepM (MemCache.new limit)

example :
    ((runM 5 [MOp.set 1 [7], MOp.set 2 [7], MOp.set 3 [7]] : MemCache Nat).set
      4 [9, 9, 9, 9, 9, 9]).1 = StoreResult.outOfMemory := by decide

example :
    lookupA ((runM 5 [MOp.set 1 [7], MOp.set 2 [7], MOp.set 3 [7]] :
      MemCache Nat).set 4 [9, 9, 9, 9, 9, 9]).2.items 1 = none := by decide

example :
    lookupA (runM 5 [MOp.set 1 [7], MOp.set 2 [7], MOp.set 3 [7]] :
      MemCache Nat).items 1 = some [7] := by decide

example :
    ((runM 5 [MOp.set 1 [7], MOp.set 2 [7], MOp.set 3 [7]] : MemCache Nat).set
      1 [1, 2, 3, 4]).1 = StoreResult.stored := by decide

example :
    ((runM 5 [MOp.set 1 [7], MOp.set 2 [7], MOp.set 3 [7]] : MemCache Nat).set
      1 [1, 2, 3, 4]).2.usage = 6 := by decide

/-! ## Invariant definitions used by the development -/

/-- Structural invariant of reachable `History` states: `next` and every
ring bucket are duplicate-free, `next` is disjoint from the ring, and
each key lies in at most one ring bucket.  (`old` is deliberately not
constrained against the rest: `dig_out` never scans it.) -/
def HInv (h : History α) : Prop :=
  h.nextBucket.items.Nodup ∧
  (∀ b ∈ h.buckets, b.items.Nodup) ∧
  (∀ k ∈ h.nextBucket.items, ∀ b ∈ h.buckets, k ∉ b.items) ∧
  (∀ k : α, h.buckets.countP (fun b => decide (k ∈ b.items)) ≤ 1)

/-- The sum of the costs recorded in an association list. -/
def costSum (l : List (α × Nat)) : Nat := (l.map Prod.snd).sum

/-- All entries of a list of map buckets, concatenated in order. -/
def ringEntries : List (MBucket α) → List (α × Nat)
  | [] => []
  | b :: bs => b.entries ++ ringEntries bs

/-- Every entry tracked by a cost-carrying history: `next` first, then
the ring (oldest first), then `old`. -/
def allEntries (h : MHistory α) : List (α × Nat) :=
  h.next.entries ++ (ringEntries h.ring ++ h.old.entries)

/-- The cost the history records for a key, if any. -/
def histFind (h : MHistory α) (x : α) : Option Nat := lookupA (allEntries h) x

/-- Structural invariant of reachable cost-carrying history states: no
key occurs twice across `next`, the ring and `old`, and each bucket's
`usage` equals the sum of its entries' costs. -/
def HWF (h : MHistory α) : Prop :=
  (keysA (allEntries h)).Nodup ∧
  h.next.usage = costSum h.next.entries ∧
  (∀ b ∈ h.ring, b.usage = costSum b.entries) ∧
  h.old.usage = costSum h.old.entries

/-- The intermediate state of `MHistory.hit` on a key absent from
`next`: the key has been dug out of `old` and every ring bucket and
inserted into `next`, but no rotation has happened yet. -/
def digSt (h : MHistory α) (k : α) (c : Nat) : MHistory α :=
  { h with
    next := h.next.insert k c
    ring := h.ring.map (fun b => b.remove k)
    old := h.old.remove k }

/-- The total number of value bytes stored in a `MemCache`'s map. -/
def itemsSize (l : List (α × List Nat)) : Nat :=
  (l.map (fun p => p.2.length)).sum

/-- Structural invariant of reachable `MemCache` states: the history is
well-formed, the value map has unique keys, and the history tracks
exactly the stored keys, each with cost equal to its value's length. -/
def MWF (c : MemCache α) : Prop :=
  HWF c.history ∧
  (keysA c.items).Nodup ∧
  (∀ x : α, histFind c.history x = (lookupA c.items x).map List.length)

/-! ## Supporting lemmas for the `history.rs` embedding -/

theorem Bucket.insert_usage (rb : α → Nat) (b : Bucket α) (k : α) :
    (b.insert rb k).usage = b.usage + rb k := rfl

theorem Bucket.insert_items_of_mem (rb : α → Nat) {b : Bucket α} {k : α}
    (hk : k ∈ b.items) : (b.insert rb k).items = b.items := by
  simp [Bucket.insert, hk]

theorem Bucket.insert_items_of_not_mem (rb : α → Nat) {b : Bucket α} {k : α}
    (hk : k ∉ b.items) : (b.insert rb k).items = k :: b.items := by
  simp [Bucket.insert, hk]

theorem Bucket.mem_insert_of_mem (rb : α → Nat) {b : Bucket α} {x : α}
    (k : α) (hx : x ∈ b.items) : x ∈ (b.insert rb k).items := by
  by_cases hk : k ∈ b.items
  · rw [Bucket.insert_items_of_mem rb hk]; exact hx
  · rw [Bucket.insert_items_of_not_mem rb hk]; exact List.mem_cons_of_mem _ hx

theorem Bucket.mem_insert_iff (rb : α → Nat) (b : Bucket α) (k x : α) :
    x ∈ (b.insert rb k).items ↔ x = k ∨ x ∈ b.items := by
  by_cases hk : k ∈ b.items
  · rw [Bucket.insert_items_of_mem rb hk]
    constructor
    · exact Or.inr
    · rintro (rfl | hx)
      · exact hk
      · exact hx
  · rw [Bucket.insert_items_of_not_mem rb hk]
    exact List.mem_cons

theorem Bucket.insert_nodup (rb : α → Nat) {b : Bucket α} (k : α)
    (hb : b.items.Nodup) : (b.insert rb k).items.Nodup := by
  by_cases hk : k ∈ b.items
  · rw [Bucket.insert_items_of_mem rb hk]; exact hb
  · rw [Bucket.insert_items_of_not_mem rb hk]; exact List.nodup_cons.2 ⟨hk, hb⟩

theorem Bucket.remove_usage (rb : α → Nat) {b : Bucket α} {k : α}
    (hk : k ∈ b.items) : (b.remove rb k).usage = b.usage - rb k := by
  simp [Bucket.remove, hk]

theorem Bucket.remove_items (rb : α → Nat) {b : Bucket α} {k : α}
    (hk : k ∈ b.items) : (b.remove rb k).items = b.items.erase k := by
  simp [Bucket.remove, hk]

theorem Bucket.remove_of_not_mem (rb : α → Nat) {b : Bucket α} {k : α}
    (hk : k ∉ b.items) : b.remove rb k = b := by
  simp [Bucket.remove, hk]

theorem Bucket.remove_subset (rb : α → Nat) (b : Bucket α) (k : α) :
    (b.remove rb k).items ⊆ b.items := by
  by_cases hk : k ∈ b.items
  · rw [Bucket.remove_items rb hk]
    exact fun x hx => List.mem_of_mem_erase hx
  · rw [Bucket.remove_of_not_mem rb hk]
    exact fun x hx => hx

theorem Bucket.remove_nodup (rb : α → Nat) {b : Bucket α} (k : α)
    (hb : b.items.Nodup) : (b.remove rb k).items.Nodup := by
  by_cases hk : k ∈ b.items
  · rw [Bucket.remove_items rb hk]; exact hb.erase k
  · rw [Bucket.remove_of_not_mem rb hk]; exact hb

theorem Bucket.not_mem_remove (rb : α → Nat) {b : Bucket α} {k : α}
    (hb : b.items.Nodup) : k ∉ (b.remove rb k).items := by
  by_cases hk : k ∈ b.items
  · rw [Bucket.remove_items rb hk]; exact hb.not_mem_erase
  · rw [Bucket.remove_of_not_mem rb hk]; exact hk

theorem Bucket.mem_extend_of_mem (rb : α → Nat) {b : Bucket α} {x : α}
    (l : List α) (hx : x ∈ b.items) : x ∈ (b.extend rb l).items := by
  induction l generalizing b with
  | nil => exact hx
  | cons a t ih => exact ih (Bucket.mem_insert_of_mem rb a hx)

theorem Bucket.extend_nodup (rb : α → Nat) {b : Bucket α} (l : List α)
    (hb : b.items.Nodup) : (b.extend rb l).items.Nodup := by
  induction l generalizing b with
  | nil => exact hb
  | cons a t ih => exact ih (Bucket.insert_nodup rb a hb)

theorem Bucket.mem_extend_iff (rb : α → Nat) (b : Bucket α) (l : List α)
    (x : α) : x ∈ (b.extend rb l).items ↔ x ∈ b.items ∨ x ∈ l := by
  induction l generalizing b with
  | nil => simp [Bucket.extend]
  | cons a t ih =>
    show x ∈ ((b.insert rb a).extend rb t).items ↔ _
    rw [ih, Bucket.mem_insert_iff]
    constructor
    · rintro ((rfl | hx) | hx)
      · exact Or.inr (List.mem_cons_self _ _)
      · exact Or.inl hx
      · exact Or.inr (List.mem_cons_of_mem _ hx)
    · rintro (hx | hx)
      · exact Or.inl (Or.inr hx)
      · rcases List.mem_cons.1 hx with rfl | hx
        · exact Or.inl (Or.inl rfl)
        · exact Or.inr hx

theorem digOut_length (rb : α → Nat) (bs : List (Bucket α)) (k : α) :
    (digOut rb bs k).length = bs.length := by
  induction bs with
  | nil => rfl
  | cons b t ih =>
    by_cases hk : k ∈ b.items <;> simp [digOut, hk, ih]

theorem digOut_of_not_mem (rb : α → Nat) {bs : List (Bucket α)} {k : α}
    (h : ∀ b ∈ bs, k ∉ b.items) : digOut rb bs k = bs := by
  induction bs with
  | nil => rfl
  | cons b t ih =>
    have hb := h b (List.mem_cons_self _ _)
    simp only [digOut, if_neg hb]
    rw [ih fun b hbt => h b (List.mem_cons_of_mem _ hbt)]

theorem digOut_mem_subset (rb : α → Nat) {bs : List (Bucket α)} {k : α}
    {b' : Bucket α} (h : b' ∈ digOut rb bs k) :
    ∃ b ∈ bs, b'.items ⊆ b.items := by
  induction bs with
  | nil => cases h
  | cons b t ih =>
    by_cases hk : k ∈ b.items
    · simp only [digOut, if_pos hk] at h
      rcases List.mem_cons.1 h with rfl | h
      · exact ⟨b, List.mem_cons_self _ _, Bucket.remove_subset rb b k⟩
      · exact ⟨b', List.mem_cons_of_mem _ h, fun x hx => hx⟩
    · simp only [digOut, if_neg hk] at h
      rcases List.mem_cons.1 h with rfl | h
      · exact ⟨b', List.mem_cons_self _ _, fun x hx => hx⟩
      · rcases ih h with ⟨b₀, hb₀, hsub⟩
        exact ⟨b₀, List.mem_cons_of_mem _ hb₀, hsub⟩

theorem digOut_nodup (rb : α → Nat) {bs : List (Bucket α)} (k : α)
    (h : ∀ b ∈ bs, b.items.Nodup) :
    ∀ b ∈ digOut rb bs k, b.items.Nodup := by
  induction bs with
  | nil => intro b hb; cases hb
  | cons b t ih =>
    intro b' hb'
    by_cases hk : k ∈ b.items
    · simp only [digOut, if_pos hk] at hb'
      rcases List.mem_cons.1 hb' with rfl | hb'
      · exact Bucket.remove_nodup rb k (h b (List.mem_cons_self _ _))
      · exact h b' (List.mem_cons_of_mem _ hb')
    · simp only [digOut, if_neg hk] at hb'
      rcases List.mem_cons.1 hb' with rfl | hb'
      · exact h b' (List.mem_cons_self _ _)
      · exact ih (fun b hbt => h b (List.mem_cons_of_mem _ hbt)) b' hb'

theorem digOut_not_mem (rb : α → Nat) {bs : List (Bucket α)} {k : α}
    (hnd : ∀ b ∈ bs, b.items.Nodup)
    (hc : bs.countP (fun b => decide (k ∈ b.items)) ≤ 1) :
    ∀ b ∈ digOut rb bs k, k ∉ b.items := by
  induction bs with
  | nil => intro b hb; cases hb
  | cons b t ih =>
    intro b' hb'
    by_cases hk : k ∈ b.items
    · simp only [digOut, if_pos hk] at hb'
      rcases List.mem_cons.1 hb' with rfl | hb'
      · exact Bucket.not_mem_remove rb (hnd b (List.mem_cons_self _ _))
      · have hone : List.countP (fun b => decide (k ∈ b.items)) (b :: t)
            = List.countP (fun b => decide (k ∈ b.items)) t + 1 := by
          rw [List.countP_cons]
          simp [hk]
        rw [hone] at hc
        have : t.countP (fun b => decide (k ∈ b.items)) = 0 := by omega
        have := List.countP_eq_zero.1 this b' hb'
        simpa using this
    · simp only [digOut, if_neg hk] at hb'
      rcases List.mem_cons.1 hb' with rfl | hb'
      · exact hk
      · refine ih (fun b hbt => hnd b (List.mem_cons_of_mem _ hbt)) ?_ b' hb'
        rw [List.countP_cons] at hc
        omega

theorem digOut_countP_other (rb : α → Nat) (bs : List (Bucket α)) {k x : α}
    (hx : x ≠ k) :
    (digOut rb bs k).countP (fun b => decide (x ∈ b.items))
      = bs.countP (fun b => decide (x ∈ b.items)) := by
  induction bs with
  | nil => rfl
  | cons b t ih =>
    by_cases hk : k ∈ b.items
    · simp only [digOut, if_pos hk, List.countP_cons, ih]
      congr 1
      by_cases hkb : x ∈ b.items
      · have : x ∈ (b.remove rb k).items := by
          rw [Bucket.remove_items rb hk]
          exact (List.mem_erase_of_ne hx).2 hkb
        simp [this, hkb]
      · have : x ∉ (b.remove rb k).items :=
          fun hmem => hkb (Bucket.remove_subset rb b k hmem)
        simp [this, hkb]
    · simp only [digOut, if_neg hk, List.countP_cons, ih]

theorem digOut_usage_sum (rb : α → Nat) {bs : List (Bucket α)} {k : α}
    (hcost : ∀ b ∈ bs, k ∈ b.items → rb k ≤ b.usage)
    (hex : ∃ b ∈ bs, k ∈ b.items) :
    ((digOut rb bs k).map Bucket.usage).sum
      = (bs.map Bucket.usage).sum - rb k := by
  induction bs with
  | nil => rcases hex with ⟨b, hb, -⟩; cases hb
  | cons b t ih =>
    by_cases hk : k ∈ b.items
    · have hb := hcost b (List.mem_cons_self _ _) hk
      simp only [digOut, if_pos hk, List.map_cons, List.sum_cons,
        Bucket.remove_usage rb hk]
      omega
    · have hex' : ∃ b ∈ t, k ∈ b.items := by
        rcases hex with ⟨b', hb', hkb'⟩
        rcases List.mem_cons.1 hb' with rfl | hb'
        · exact absurd hkb' hk
        · exact ⟨b', hb', hkb'⟩
      have hcost' : ∀ b ∈ t, k ∈ b.items → rb k ≤ b.usage :=
        fun b hb hkb => hcost b (List.mem_cons_of_mem _ hb) hkb
      have hle : rb k ≤ (t.map Bucket.usage).sum := by
        rcases hex' with ⟨b', hb', hkb'⟩
        calc rb k ≤ b'.usage := hcost' b' hb' hkb'
          _ ≤ (t.map Bucket.usage).sum :=
            List.single_le_sum (fun x _ => Nat.zero_le x) _
              (List.mem_map_of_mem Bucket.usage hb')
      simp only [digOut, if_neg hk, List.map_cons, List.sum_cons, ih hcost' hex']
      omega

theorem countP_ring_snoc {bs : List (Bucket α)} {nb : Bucket α} {k : α}
    (hd : k ∈ nb.items → ∀ b ∈ bs, k ∉ b.items)
    (hc : bs.countP (fun b => decide (k ∈ b.items)) ≤ 1) :
    (bs ++ [nb]).countP (fun b => decide (k ∈ b.items)) ≤ 1 := by
  rw [List.countP_append]
  by_cases hk : k ∈ nb.items
  · have h0 : bs.countP (fun b => decide (k ∈ b.items)) = 0 :=
      List.countP_eq_zero.2 (fun b hb => by simpa using hd hk b hb)
    have h1 : List.countP (fun b => decide (k ∈ b.items)) [nb] ≤ 1 := by
      simp [hk]
    omega
  · have h1 : List.countP (fun b => decide (k ∈ b.items)) [nb] = 0 := by
      simp [hk]
    omega

theorem hinv_new (m c : Nat) : HInv (History.new m c : History α) := by
  refine ⟨List.nodup_nil, ?_, ?_, ?_⟩
  · intro b hb; cases hb
  · intro k hk; cases hk
  · intro k; simp [History.new]

theorem hinv_burry (rb : α → Nat) {h : History α} (hi : HInv h) :
    HInv (h.burryBucket rb) := by
  obtain ⟨hnn, hbn, hdisj, hcnt⟩ := hi
  unfold History.burryBucket
  split
  · split
    · exact ⟨hnn, hbn, hdisj, hcnt⟩
    · rename_i o rest hbs
      rw [hbs] at hbn hdisj hcnt
      refine ⟨List.nodup_nil, ?_, ?_, ?_⟩
      · intro b hb
        rcases List.mem_append.1 hb with hb | hb
        · exact hbn b (List.mem_cons_of_mem _ hb)
        · rcases List.mem_singleton.1 hb with rfl
          exact hnn
      · intro k hk; cases hk
      · intro k
        show (rest ++ [h.nextBucket]).countP (fun b => decide (k ∈ b.items)) ≤ 1
        refine countP_ring_snoc ?_ ?_
        · intro hk b hb
          exact hdisj k hk b (List.mem_cons_of_mem _ hb)
        · have := hcnt k
          rw [List.countP_cons] at this
          omega
  · refine ⟨List.nodup_nil, ?_, ?_, ?_⟩
    · intro b hb
      rcases List.mem_append.1 hb with hb | hb
      · exact hbn b hb
      · rcases List.mem_singleton.1 hb with rfl
        exact hnn
    · intro k hk; cases hk
    · intro k
      show (h.buckets ++ [h.nextBucket]).countP (fun b => decide (k ∈ b.items)) ≤ 1
      exact countP_ring_snoc (fun hk b hb => hdisj k hk b hb) (hcnt k)

theorem hinv_hit (rb : α → Nat) {h : History α} (hi : HInv h) (k : α) :
    HInv (h.hit rb k) := by
  obtain ⟨hnn, hbn, hdisj, hcnt⟩ := hi
  by_cases hk : k ∈ h.nextBucket.items
  · rw [History.hit, if_pos hk]
    exact ⟨hnn, hbn, hdisj, hcnt⟩
  · have hrep : h.hit rb k =
        (if h.maxBucketUsage ≤ (h.nextBucket.insert rb k).usage then
          History.burryBucket rb
            { h with buckets := digOut rb h.buckets k,
                     nextBucket := h.nextBucket.insert rb k }
        else
          { h with buckets := digOut rb h.buckets k,
                   nextBucket := h.nextBucket.insert rb k }) := by
      rw [History.hit, if_neg hk]
    have hmid : HInv { h with buckets := digOut rb h.buckets k, nextBucket := h.nextBucket.insert rb k } := by
      refine ⟨Bucket.insert_nodup rb k hnn, digOut_nodup rb k hbn, ?_, ?_⟩
      · intro x hx b hb
        rcases (Bucket.mem_insert_iff rb _ _ _).1 hx with rfl | hx
        · exact digOut_not_mem rb hbn (hcnt x) b hb
        · rcases digOut_mem_subset rb hb with ⟨b₀, hb₀, hsub⟩
          exact fun hxb => hdisj x hx b₀ hb₀ (hsub hxb)
      · intro x
        show (digOut rb h.buckets k).countP (fun b => decide (x ∈ b.items)) ≤ 1
        by_cases hxk : x = k
        · subst hxk
          have h0 : (digOut rb h.buckets x).countP
              (fun b => decide (x ∈ b.items)) = 0 :=
            List.countP_eq_zero.2 (fun b hb => by
              simpa using digOut_not_mem rb hbn (hcnt x) b hb)
          omega
        · rw [digOut_countP_other rb _ hxk]
          exact hcnt x
    rw [hrep]
    by_cases hthr : h.maxBucketUsage ≤ (h.nextBucket.insert rb k).usage
    · rw [if_pos hthr]
      exact hinv_burry rb hmid
    · rw [if_neg hthr]
      exact hmid

theorem hinv_remove (rb : α → Nat) {h : History α} (hi : HInv h) (k : α) :
    HInv (h.remove rb k) := by
  obtain ⟨hnn, hbn, hdisj, hcnt⟩ := hi
  by_cases hk : k ∈ h.nextBucket.items
  · rw [History.remove, if_pos hk]
    refine ⟨Bucket.remove_nodup rb k hnn, hbn, ?_, hcnt⟩
    intro x hx b hb
    exact hdisj x (Bucket.remove_subset rb _ k hx) b hb
  · rw [History.remove, if_neg hk]
    refine ⟨hnn, digOut_nodup rb k hbn, ?_, ?_⟩
    · intro x hx b hb
      rcases digOut_mem_subset rb hb with ⟨b₀, hb₀, hsub⟩
      exact fun hxb => hdisj x hx b₀ hb₀ (hsub hxb)
    · intro x
      show (digOut rb h.buckets k).countP (fun b => decide (x ∈ b.items)) ≤ 1
      by_cases hxk : x = k
      · subst hxk
        have h0 : (digOut rb h.buckets x).countP
            (fun b => decide (x ∈ b.items)) = 0 :=
          List.countP_eq_zero.2 (fun b hb => by
            simpa using digOut_not_mem rb hbn (hcnt x) b hb)
        omega
      · rw [digOut_countP_other rb _ hxk]
        exact hcnt x

theorem burry_old_mono (rb : α → Nat) (h : History α) {x : α}
    (hx : x ∈ h.oldBucket.items) :
    x ∈ (h.burryBucket rb).oldBucket.items := by
  unfold History.burryBucket
  split
  · split
    · exact hx
    · exact Bucket.mem_extend_of_mem rb _ hx
  · exact hx

theorem hit_old_mono (rb : α → Nat) (h : History α) (k : α) {x : α}
    (hx : x ∈ h.oldBucket.items) :
    x ∈ (h.hit rb k).oldBucket.items := by
  by_cases hk : k ∈ h.nextBucket.items
  · rw [History.hit, if_pos hk]; exact hx
  · have hrep : h.hit rb k =
        (if h.maxBucketUsage ≤ (h.nextBucket.insert rb k).usage then
          History.burryBucket rb
            { h with buckets := digOut rb h.buckets k,
                     nextBucket := h.nextBucket.insert rb k }
        else
          { h with buckets := digOut rb h.buckets k,
                   nextBucket := h.nextBucket.insert rb k }) := by
      rw [History.hit, if_neg hk]
    rw [hrep]
    by_cases hthr : h.maxBucketUsage ≤ (h.nextBucket.insert rb k).usage
    · rw [if_pos hthr]
      exact burry_old_mono rb _ hx
    · rw [if_neg hthr]
      exact hx

theorem burry_next_empty (rb : α → Nat) (h : History α)
    (hc : 1 ≤ h.bucketCount) :
    (h.burryBucket rb).nextBucket = Bucket.new := by
  unfold History.burryBucket
  split
  · rename_i hfull
    split
    · rename_i hbs
      rw [hbs] at hfull
      simp at hfull
      omega
    · rfl
  · rfl

theorem burry_bucketCount (rb : α → Nat) (h : History α) :
    (h.burryBucket rb).bucketCount = h.bucketCount := by
  unfold History.burryBucket
  split
  · split <;> rfl
  · rfl

theorem burry_len (rb : α → Nat) (h : History α) :
    (h.burryBucket rb).buckets.length =
      if h.bucketCount ≤ h.buckets.length then h.buckets.length
      else h.buckets.length + 1 := by
  unfold History.burryBucket
  split
  · rename_i hfull
    split
    · simp [hfull]
    · rename_i o rest hbs
      simp [hfull, hbs]
  · rename_i hfull
    simp [hfull]

theorem hit_bucketCount (rb : α → Nat) (h : History α) (k : α) :
    (h.hit rb k).bucketCount = h.bucketCount := by
  by_cases hk : k ∈ h.nextBucket.items
  · rw [History.hit, if_pos hk]
  · have hrep : h.hit rb k =
        (if h.maxBucketUsage ≤ (h.nextBucket.insert rb k).usage then
          History.burryBucket rb
            { h with buckets := digOut rb h.buckets k,
                     nextBucket := h.nextBucket.insert rb k }
        else
          { h with buckets := digOut rb h.buckets k,
                   nextBucket := h.nextBucket.insert rb k }) := by
      rw [History.hit, if_neg hk]
    rw [hrep]
    by_cases hthr : h.maxBucketUsage ≤ (h.nextBucket.insert rb k).usage
    · rw [if_pos hthr, burry_bucketCount]
    · rw [if_neg hthr]

theorem step_bucketCount (rb : α → Nat) (h : History α) (op : HOp α) :
    (stepH rb h op).bucketCount = h.bucketCount := by
  cases op with
  | hit k => exact hit_bucketCount rb h k
  | rem k =>
    rw [stepH, History.remove]
    split <;> rfl
  | spill => rfl

theorem hit_len_cases (rb : α → Nat) (h : History α) (k : α) :
    (h.hit rb k).buckets.length = h.buckets.length ∨
    ((h.hit rb k).buckets.length = h.buckets.length + 1 ∧
      h.buckets.length < h.bucketCount) := by
  by_cases hk : k ∈ h.nextBucket.items
  · rw [History.hit, if_pos hk]
    exact Or.inl rfl
  · have hrep : h.hit rb k =
        (if h.maxBucketUsage ≤ (h.nextBucket.insert rb k).usage then
          History.burryBucket rb
            { h with buckets := digOut rb h.buckets k,
                     nextBucket := h.nextBucket.insert rb k }
        else
          { h with buckets := digOut rb h.buckets k,
                   nextBucket := h.nextBucket.insert rb k }) := by
      rw [History.hit, if_neg hk]
    rw [hrep]
    by_cases hthr : h.maxBucketUsage ≤ (h.nextBucket.insert rb k).usage
    · rw [if_pos hthr, burry_len]
      show (if h.bucketCount ≤ (digOut rb h.buckets k).length then
          (digOut rb h.buckets k).length
        else (digOut rb h.buckets k).length + 1) = _ ∨ _
      rw [digOut_length]
      by_cases hfull : h.bucketCount ≤ h.buckets.length
      · rw [if_pos hfull]
        exact Or.inl rfl
      · rw [if_neg hfull]
        exact Or.inr ⟨rfl, by omega⟩
    · rw [if_neg hthr]
      exact Or.inl (digOut_length rb h.buckets k)

theorem step_len_cases (rb : α → Nat) (h : History α) (op : HOp α) :
    (stepH rb h op).buckets.length = h.buckets.length ∨
    ((stepH rb h op).buckets.length = h.buckets.length + 1 ∧
      h.buckets.length < h.bucketCount) := by
  cases op with
  | hit k => exact hit_len_cases rb h k
  | rem k =>
    rw [stepH, History.remove]
    split
    · exact Or.inl rfl
    · exact Or.inl (digOut_length rb h.buckets k)
  | spill => exact Or.inl rfl

theorem run_bucketCount (rb : α → Nat) (m c : Nat) (ops : List (HOp α)) :
    (runH rb m c ops).bucketCount = c := by
  suffices hgen : ∀ (h0 : History α), (ops.foldl (stepH rb) h0).bucketCount
      = h0.bucketCount by
    exact hgen (History.new m c)
  induction ops with
  | nil => exact fun h0 => rfl
  | cons op t ih =>
    intro h0
    rw [List.foldl_cons, ih, step_bucketCount]

theorem run_len_le (rb : α → Nat) (m c : Nat) (ops : List (HOp α)) :
    (runH rb m c ops).buckets.length ≤ c := by
  suffices hgen : ∀ (h0 : History α), h0.buckets.length ≤ h0.bucketCount →
      (ops.foldl (stepH rb) h0).buckets.length
        ≤ (ops.foldl (stepH rb) h0).bucketCount by
    have := hgen (History.new m c) (by simp [History.new])
    rw [show (ops.foldl (stepH rb) (History.new m c) : History α)
        = runH rb m c ops from rfl, run_bucketCount] at this
    exact this
  induction ops with
  | nil => exact fun h0 hl => hl
  | cons op t ih =>
    intro h0 hl
    rw [List.foldl_cons]
    refine ih _ ?_
    rw [step_bucketCount]
    rcases step_len_cases rb h0 op with hc | ⟨hc, hlt⟩
    · omega
    · omega

theorem detailedUsage_length (h : History α) :
    h.detailedUsage.length = 2 + h.buckets.length := by
  simp [History.detailedUsage]
  omega

theorem hinv_step (rb : α → Nat) {h : History α} (hi : HInv h) (op : HOp α) :
    HInv (stepH rb h op) := by
  cases op with
  | hit k => exact hinv_hit rb hi k
  | rem k => exact hinv_remove rb hi k
  | spill => exact ⟨hi.1, hi.2.1, hi.2.2.1, hi.2.2.2⟩

theorem hinv_run (rb : α → Nat) (m c : Nat) (ops : List (HOp α)) :
    HInv (runH rb m c ops) := by
  suffices h : ∀ (h0 : History α), HInv h0 → HInv (ops.foldl (stepH rb) h0) by
    exact h _ (hinv_new m c)
  induction ops with
  | nil => exact fun h0 hi => hi
  | cons op t ih => exact fun h0 hi => ih _ (hinv_step rb hi op)

/-! ## Claim theorems -/

/-- C1, counterexample: the claimed invariant is false.  Starting from
`History::new(2, 1)`, the hits `1 2 3 4` age key 1 into `old`; hitting
key 1 again inserts it into `next` without removing it from `old`
(`dig_out` scans only the ring), so key 1 is then present in both `old`
and `next` simultaneously. -/
theorem c1_counterexample :
    (1, 1) ∈ (runH rbv 2 1 [HOp.hit (1, 1), HOp.hit (2, 1), HOp.hit (3, 1),
      HOp.hit (4, 1), HOp.hit (1, 1)]).oldBucket.items ∧
    (1, 1) ∈ (runH rbv 2 1 [HOp.hit (1, 1), HOp.hit (2, 1), HOp.hit (3, 1),
      HOp.hit (4, 1), HOp.hit (1, 1)]).nextBucket.items := by decide

/-- C1, amended: in every reachable `History` state each key is present
in at most one of `next` and the ring buckets (`hit` digs the key out of
the ring before inserting it into `next`), but a key may simultaneously
remain in `old`: `hit` never removes a key from `old` (it only ever adds
to `old` during rotation). -/
theorem c1_amended (rb : α → Nat) (m c : Nat) (ops : List (HOp α)) :
    (∀ k ∈ (runH rb m c ops).nextBucket.items,
        ∀ b ∈ (runH rb m c ops).buckets, k ∉ b.items) ∧
    (∀ k : α, (runH rb m c ops).buckets.countP
        (fun b => decide (k ∈ b.items)) ≤ 1) ∧
    (∀ x k : α, x ∈ (runH rb m c ops).oldBucket.items →
        x ∈ ((runH rb m c ops).hit rb k).oldBucket.items) := by
  obtain ⟨-, -, hdisj, hcnt⟩ := hinv_run rb m c ops
  exact ⟨hdisj, hcnt, fun x k hx => hit_old_mono rb _ k hx⟩

theorem c1_amended_witness :
    ((1, 1) ∈ (runH rbv 2 1 [HOp.hit (1, 1), HOp.hit (2, 1), HOp.hit (3, 1),
        HOp.hit (4, 1)]).oldBucket.items) ∧
    (1, 1) ∈ ((runH rbv 2 1 [HOp.hit (1, 1), HOp.hit (2, 1), HOp.hit (3, 1),
        HOp.hit (4, 1)]).hit rbv (5, 1)).oldBucket.items :=
  ⟨by decide,
    (c1_amended rbv 2 1 [HOp.hit (1, 1), HOp.hit (2, 1), HOp.hit (3, 1),
      HOp.hit (4, 1)]).2.2 (1, 1) (5, 1) (by decide)⟩

/-- C3, counterexample: `remove` does not delete a key held by `old`.
In the state reached by hitting `1 2 3 4` from `History::new(2, 1)`,
key 1 sits in `old` with cost 1; `remove` leaves `old` — and every
band's usage — unchanged, where the claim demands key 1 be deleted and
the usage drop by its cost. -/
theorem c3_counterexample :
    ((runH rbv 2 1 [HOp.hit (1, 1), HOp.hit (2, 1), HOp.hit (3, 1),
        HOp.hit (4, 1)]).remove rbv (1, 1)).oldBucket
      = (runH rbv 2 1 [HOp.hit (1, 1), HOp.hit (2, 1), HOp.hit (3, 1),
        HOp.hit (4, 1)]).oldBucket ∧
    (1, 1) ∈ ((runH rbv 2 1 [HOp.hit (1, 1), HOp.hit (2, 1), HOp.hit (3, 1),
        HOp.hit (4, 1)]).remove rbv (1, 1)).oldBucket.items ∧
    ((runH rbv 2 1 [HOp.hit (1, 1), HOp.hit (2, 1), HOp.hit (3, 1),
        HOp.hit (4, 1)]).remove rbv (1, 1)).usage
      = (runH rbv 2 1 [HOp.hit (1, 1), HOp.hit (2, 1), HOp.hit (3, 1),
        HOp.hit (4, 1)]).usage := by decide

/-- C3, amended: `remove(k)` never fails and never touches `old`.  It
deletes `k` from `next` when present there (decreasing `next`'s usage by
`k`'s cost and leaving the ring alone); otherwise it digs `k` out of the
first ring bucket holding it (decreasing the ring's total usage by `k`'s
cost); when `k` is absent from both `next` and the ring — even if it sits
in `old` — the whole state is unchanged. -/
theorem c3_amended (rb : α → Nat) (h : History α) (k : α) :
    ((h.remove rb k).oldBucket = h.oldBucket) ∧
    (k ∈ h.nextBucket.items →
      (h.remove rb k).nextBucket.items = h.nextBucket.items.erase k ∧
      (h.remove rb k).nextBucket.usage = h.nextBucket.usage - rb k ∧
      (h.remove rb k).buckets = h.buckets) ∧
    (k ∉ h.nextBucket.items → (∀ b ∈ h.buckets, k ∉ b.items) →
      h.remove rb k = h) ∧
    (k ∉ h.nextBucket.items → (∀ b ∈ h.buckets, b.items.Nodup) →
      h.buckets.countP (fun b => decide (k ∈ b.items)) ≤ 1 →
      (∀ b ∈ h.buckets, k ∈ b.items → rb k ≤ b.usage) →
      (h.remove rb k).nextBucket = h.nextBucket ∧
      (∀ b ∈ (h.remove rb k).buckets, k ∉ b.items) ∧
      ((∃ b ∈ h.buckets, k ∈ b.items) →
        ((h.remove rb k).buckets.map Bucket.usage).sum
          = (h.buckets.map Bucket.usage).sum - rb k)) := by
  refine ⟨?_, ?_, ?_, ?_⟩
  · rw [History.remove]
    split <;> rfl
  · intro hk
    rw [History.remove, if_pos hk]
    exact ⟨Bucket.remove_items rb hk, Bucket.remove_usage rb hk, rfl⟩
  · intro hk habs
    rw [History.remove, if_neg hk, digOut_of_not_mem rb habs]
  · intro hk hnd hcnt hcost
    rw [History.remove, if_neg hk]
    refine ⟨rfl, digOut_not_mem rb hnd hcnt, ?_⟩
    intro hex
    show ((digOut rb h.buckets k).map Bucket.usage).sum = _
    exact digOut_usage_sum rb hcost hex

theorem c3_amended_witness :
    ((3, 1) ∉ (runH rbv 2 1 [HOp.hit (1, 1), HOp.hit (2, 1), HOp.hit (3, 1),
        HOp.hit (4, 1)]).nextBucket.items) ∧
    (∀ b ∈ ((runH rbv 2 1 [HOp.hit (1, 1), HOp.hit (2, 1), HOp.hit (3, 1),
        HOp.hit (4, 1)]).remove rbv (3, 1)).buckets, (3, 1) ∉ b.items) :=
  ⟨by decide,
    ((c3_amended rbv (runH rbv 2 1 [HOp.hit (1, 1), HOp.hit (2, 1),
        HOp.hit (3, 1), HOp.hit (4, 1)]) (3, 1)).2.2.2 (by decide) (by decide)
      (by decide) (by decide)).2.1⟩

/-- C4, counterexample: `Bucket::insert` does not replace an
already-present key; it unconditionally adds the cost to `usage` again.
Inserting key `(1, 2)` twice into a fresh bucket leaves a single entry of
cost 2 but a `usage` of 4, so the usage does not equal the sum of the
entries' costs and the repeated insert has double counted. -/
theorem c4_counterexample :
    (Bucket.insert rbv (Bucket.insert rbv Bucket.new (1, 2)) (1, 2)).usage = 4 ∧
    (Bucket.insert rbv (Bucket.insert rbv Bucket.new (1, 2)) (1, 2)).items
      = [(1, 2)] ∧
    ¬ (Bucket.insert rbv (Bucket.insert rbv Bucket.new (1, 2)) (1, 2)).usage
      = ((Bucket.insert rbv (Bucket.insert rbv Bucket.new (1, 2))
          (1, 2)).items.map rbv).sum := by decide

/-- C4, amended: `Bucket::insert` always increases `usage` by the full
cost of the inserted key.  When the key is new it is added to the entry
set; when the key is already present the entry set is unchanged but the
cost is still added, so a repeated insert double counts. -/
theorem c4_amended (rb : α → Nat) (b : Bucket α) (k : α) :
    ((b.insert rb k).usage = b.usage + rb k) ∧
    (k ∈ b.items → (b.insert rb k).items = b.items) ∧
    (k ∉ b.items → (b.insert rb k).items = k :: b.items) :=
  ⟨Bucket.insert_usage rb b k,
    fun hk => Bucket.insert_items_of_mem rb hk,
    fun hk => Bucket.insert_items_of_not_mem rb hk⟩

theorem c4_amended_witness :
    ((1, 2) ∈ (Bucket.insert rbv Bucket.new (1, 2)).items) ∧
    (Bucket.insert rbv (Bucket.insert rbv Bucket.new (1, 2)) (1, 2)).items
      = (Bucket.insert rbv Bucket.new (1, 2)).items :=
  ⟨by decide,
    (c4_amended rbv (Bucket.insert rbv Bucket.new (1, 2)) (1, 2)).2.1
      (by decide)⟩

/-- C7, confirmed: `spill` hands exactly the contents of `old` to the
collector and clears `old` (leaving `next` and the ring untouched).  A
second, immediate `spill` therefore delivers nothing. -/
theorem c7_spill_drains_old (h : History α) :
    h.spill.1 = h.oldBucket.items ∧
    h.spill.2.oldBucket.items = [] ∧
    h.spill.2.oldBucket.usage = 0 ∧
    h.spill.2.nextBucket = h.nextBucket ∧
    h.spill.2.buckets = h.buckets ∧
    h.spill.2.spill.1 = [] :=
  ⟨rfl, rfl, rfl, rfl, rfl, rfl⟩

/-- C8, confirmed: from `History::new(2, 2)` the hits
`(1,2) (2,2) (3,2)` give band usages `[2, 2, 2, 0]` and total usage 6;
`spill` then delivers exactly key 1, leaving band usages `[0, 2, 2, 0]`
and total usage 4 — the repository's `spills_oldest` scenario. -/
theorem c8_spills_oldest :
    (runH rbv 2 2 [HOp.hit (1, 2), HOp.hit (2, 2), HOp.hit (3, 2)]).detailedUsage
      = [2, 2, 2, 0] ∧
    (runH rbv 2 2 [HOp.hit (1, 2), HOp.hit (2, 2), HOp.hit (3, 2)]).usage = 6 ∧
    (runH rbv 2 2 [HOp.hit (1, 2), HOp.hit (2, 2), HOp.hit (3, 2)]).spill.1
      = [(1, 2)] ∧
    (runH rbv 2 2 [HOp.hit (1, 2), HOp.hit (2, 2),
      HOp.hit (3, 2)]).spill.2.detailedUsage = [0, 2, 2, 0] ∧
    (runH rbv 2 2 [HOp.hit (1, 2), HOp.hit (2, 2), HOp.hit (3, 2)]).spill.2.usage
      = 4 := by decide

/-- C9: the rotation trigger is checked after insertion — when a hit of a
key not in `next` makes `next`'s usage reach the threshold, a rotation
runs (emptying `next`, tolerating the oversized item); below the
threshold the key simply joins `next`.  Concretely, from
`History::new(2, 2)` the oversized hits `(1,4) (2,5) (3,6)` rotate once
per hit, giving total usage 15, and `spill` then yields exactly key 1,
leaving total usage 11 — the repository's `supports_oversized` scenario. -/
theorem c9_after_insert_rotation (rb : α → Nat) (h : History α) (k : α)
    (hc : 1 ≤ h.bucketCount) (hk : k ∉ h.nextBucket.items) :
    (h.maxBucketUsage ≤ h.nextBucket.usage + rb k →
      (h.hit rb k).nextBucket.items = []) ∧
    (h.nextBucket.usage + rb k < h.maxBucketUsage →
      (h.hit rb k).nextBucket.items = k :: h.nextBucket.items ∧
      (h.hit rb k).nextBucket.usage = h.nextBucket.usage + rb k) ∧
    ((runH rbv 2 2 [HOp.hit (1, 4), HOp.hit (2, 5), HOp.hit (3, 6)]).usage = 15 ∧
      (runH rbv 2 2 [HOp.hit (1, 4), HOp.hit (2, 5),
        HOp.hit (3, 6)]).detailedUsage = [4, 5, 6, 0] ∧
      (runH rbv 2 2 [HOp.hit (1, 4), HOp.hit (2, 5), HOp.hit (3, 6)]).spill.1
        = [(1, 4)] ∧
      (runH rbv 2 2 [HOp.hit (1, 4), HOp.hit (2, 5),
        HOp.hit (3, 6)]).spill.2.usage = 11) := by
  have hrep : h.hit rb k =
      (if h.maxBucketUsage ≤ (h.nextBucket.insert rb k).usage then
        History.burryBucket rb
          { h with buckets := digOut rb h.buckets k,
                   nextBucket := h.nextBucket.insert rb k }
      else
        { h with buckets := digOut rb h.buckets k,
                 nextBucket := h.nextBucket.insert rb k }) := by
    rw [History.hit, if_neg hk]
  refine ⟨?_, ?_, by decide⟩
  · intro hthr
    have hthr' : h.maxBucketUsage ≤ (h.nextBucket.insert rb k).usage := by
      rw [Bucket.insert_usage]
      exact hthr
    rw [hrep, if_pos hthr']
    rw [burry_next_empty rb { h with buckets := digOut rb h.buckets k, nextBucket := h.nextBucket.insert rb k } hc]
    rfl
  · intro hthr
    have hthr' : ¬ h.maxBucketUsage ≤ (h.nextBucket.insert rb k).usage := by
      rw [Bucket.insert_usage]
      omega
    rw [hrep, if_neg hthr']
    exact ⟨Bucket.insert_items_of_not_mem rb hk, rfl⟩

theorem c9_after_insert_rotation_witness :
    (1 ≤ (History.new 2 2 : History (Nat × Nat)).bucketCount) ∧
    ((1, 4) ∉ (History.new 2 2 : History (Nat × Nat)).nextBucket.items) ∧
    ((History.new 2 2 : History (Nat × Nat)).hit rbv (1, 4)).nextBucket.items
      = [] :=
  ⟨by decide, by decide,
    (c9_after_insert_rotation rbv (History.new 2 2) (1, 4) (by decide)
      (by decide)).1 (by decide)⟩

/-- C10: `detailed_usage` reports one band per bucket, ordered `old`
first, sealed ring generations oldest first, `next` last.  A fresh
`History` reports exactly the two bands `[0, 0]`; every operation grows
the band count by at most one (it grows only at a rotation with spare
ring room); the count never exceeds `generation_count + 2`, and once it
reaches `generation_count + 2` it stays there. -/
theorem c10_band_count (rb : α → Nat) (m c : Nat) (ops : List (HOp α))
    (hc : 1 ≤ c) :
    ((History.new m c : History α).detailedUsage = [0, 0]) ∧
    ((runH rb m c ops).detailedUsage.length
      = 2 + (runH rb m c ops).buckets.length) ∧
    ((runH rb m c ops).detailedUsage.length ≤ c + 2) ∧
    (∀ op : HOp α,
      (stepH rb (runH rb m c ops) op).detailedUsage.length
          = (runH rb m c ops).detailedUsage.length ∨
      (stepH rb (runH rb m c ops) op).detailedUsage.length
          = (runH rb m c ops).detailedUsage.length + 1) ∧
    ((runH rb m c ops).detailedUsage.length = c + 2 →
      ∀ op : HOp α,
        (stepH rb (runH rb m c ops) op).detailedUsage.length = c + 2) ∧
    ((runH rb m c ops).detailedUsage.head?
      = some (runH rb m c ops).oldBucket.usage) ∧
    ((runH rb m c ops).detailedUsage.getLast?
      = some (runH rb m c ops).nextBucket.usage) := by
  refine ⟨rfl, detailedUsage_length _, ?_, ?_, ?_, rfl, ?_⟩
  · rw [detailedUsage_length]
    have := run_len_le rb m c ops
    omega
  · intro op
    rw [detailedUsage_length, detailedUsage_length]
    rcases step_len_cases rb (runH rb m c ops) op with hl | ⟨hl, -⟩
    · exact Or.inl (by omega)
    · exact Or.inr (by omega)
  · intro hfull op
    rw [detailedUsage_length] at hfull
    rw [detailedUsage_length]
    rcases step_len_cases rb (runH rb m c ops) op with hl | ⟨hl, hlt⟩
    · omega
    · rw [run_bucketCount] at hlt
      omega
  · show (((runH rb m c ops).oldBucket.usage
        :: (runH rb m c ops).buckets.map Bucket.usage)
      ++ [(runH rb m c ops).nextBucket.usage]).getLast? = _
    exact List.getLast?_concat _

theorem c10_band_count_witness :
    (1 ≤ 2) ∧
    (runH rbv 2 2 [HOp.hit (1, 4), HOp.hit (2, 5),
      HOp.hit (3, 6)]).detailedUsage.length ≤ 2 + 2 :=
  ⟨by decide,
    (c10_band_count rbv 2 2 [HOp.hit (1, 4), HOp.hit (2, 5), HOp.hit (3, 6)]
      (by decide)).2.2.1⟩

/-! ## Association-list lemmas, shared by the cost map and the value map -/

theorem keysA_cons {β : Type} (p : α × β) (t : List (α × β)) :
    keysA (p :: t) = p.1 :: keysA t := rfl

theorem keysA_append {β : Type} (l1 l2 : List (α × β)) :
    keysA (l1 ++ l2) = keysA l1 ++ keysA l2 :=
  List.map_append _ _ _

theorem keysA_reverse {β : Type} (l : List (α × β)) :
    keysA l.reverse = (keysA l).reverse :=
  List.map_reverse _ _

theorem lookupA_eq_none {β : Type} {l : List (α × β)} {x : α}
    (hx : x ∉ keysA l) : lookupA l x = none := by
  induction l with
  | nil => rfl
  | cons p t ih =>
    obtain ⟨a, b⟩ := p
    have hne : a ≠ x := fun ha => hx (by rw [ha]; exact List.mem_cons_self _ _)
    have hxt : x ∉ keysA t := fun hm => hx (List.mem_cons_of_mem _ hm)
    simp only [lookupA, if_neg hne]
    exact ih hxt

theorem mem_keys_of_lookupA {β : Type} {l : List (α × β)} {x : α} {b : β}
    (h : lookupA l x = some b) : x ∈ keysA l := by
  by_contra hx
  rw [lookupA_eq_none hx] at h
  cases h

theorem lookupA_isSome_of_mem {β : Type} {l : List (α × β)} {x : α}
    (hx : x ∈ keysA l) : ∃ b, lookupA l x = some b := by
  induction l with
  | nil => cases hx
  | cons p t ih =>
    obtain ⟨a, b⟩ := p
    by_cases ha : a = x
    · exact ⟨b, by simp [lookupA, ha]⟩
    · rcases List.mem_cons.1 hx with rfl | hx
      · exact absurd rfl ha
      · rcases ih hx with ⟨b', hb'⟩
        exact ⟨b', by simp only [lookupA, if_neg ha]; exact hb'⟩

theorem mem_of_lookupA {β : Type} {l : List (α × β)} {x : α} {b : β}
    (h : lookupA l x = some b) : (x, b) ∈ l := by
  induction l with
  | nil => cases h
  | cons p t ih =>
    obtain ⟨a, b'⟩ := p
    by_cases ha : a = x
    · subst ha
      simp only [lookupA, if_pos rfl] at h
      cases h
      exact List.mem_cons_self _ _
    · simp only [lookupA, if_neg ha] at h
      exact List.mem_cons_of_mem _ (ih h)

theorem lookupA_append_left {β : Type} {l1 : List (α × β)} (l2 : List (α × β))
    {x : α} (hx : x ∈ keysA l1) : lookupA (l1 ++ l2) x = lookupA l1 x := by
  induction l1 with
  | nil => cases hx
  | cons p t ih =>
    obtain ⟨a, b⟩ := p
    by_cases ha : a = x
    · simp [lookupA, ha]
    · rcases List.mem_cons.1 hx with rfl | hx
      · exact absurd rfl ha
      · simp only [List.cons_append, lookupA, if_neg ha]
        exact ih hx

theorem lookupA_append_right {β : Type} {l1 : List (α × β)} (l2 : List (α × β))
    {x : α} (hx : x ∉ keysA l1) : lookupA (l1 ++ l2) x = lookupA l2 x := by
  induction l1 with
  | nil => rfl
  | cons p t ih =>
    obtain ⟨a, b⟩ := p
    have hne : a ≠ x := fun ha => hx (by rw [ha]; exact List.mem_cons_self _ _)
    have hxt : x ∉ keysA t := fun hm => hx (List.mem_cons_of_mem _ hm)
    simp only [List.cons_append, lookupA, if_neg hne]
    exact ih hxt

theorem removeA_of_not_mem {β : Type} {l : List (α × β)} {k : α}
    (hk : k ∉ keysA l) : removeA l k = l := by
  induction l with
  | nil => rfl
  | cons p t ih =>
    obtain ⟨a, b⟩ := p
    have hne : a ≠ k := fun ha => hk (by rw [ha]; exact List.mem_cons_self _ _)
    have hkt : k ∉ keysA t := fun hm => hk (List.mem_cons_of_mem _ hm)
    simp only [removeA, if_neg hne]
    rw [ih hkt]

theorem removeA_lookup_other {β : Type} {l : List (α × β)} {x k : α}
    (hx : x ≠ k) : lookupA (removeA l k) x = lookupA l x := by
  induction l with
  | nil => rfl
  | cons p t ih =>
    obtain ⟨a, b⟩ := p
    by_cases ha : a = k
    · have h1 : removeA ((a, b) :: t) k = t := by
        simp [removeA, ha]
      have hne : a ≠ x := by
        rw [ha]
        exact fun h => hx h.symm
      have h2 : lookupA ((a, b) :: t) x = lookupA t x := by
        simp [lookupA, hne]
      rw [h1, h2]
    · have h1 : removeA ((a, b) :: t) k = (a, b) :: removeA t k := by
        simp [removeA, ha]
      rw [h1]
      by_cases hax : a = x
      · simp [lookupA, hax]
      · simp only [lookupA, if_neg hax]
        exact ih

theorem keysA_removeA {β : Type} (l : List (α × β)) (k : α) :
    keysA (removeA l k) = (keysA l).erase k := by
  induction l with
  | nil => rfl
  | cons p t ih =>
    obtain ⟨a, b⟩ := p
    by_cases ha : a = k
    · have h1 : removeA ((a, b) :: t) k = t := by
        simp [removeA, ha]
      rw [h1]
      have h2 : keysA ((a, b) :: t) = a :: keysA t := rfl
      rw [h2, ha, List.erase_cons_head]
    · have h1 : removeA ((a, b) :: t) k = (a, b) :: removeA t k := by
        simp [removeA, ha]
      rw [h1]
      have h2 : keysA ((a, b) :: removeA t k) = a :: keysA (removeA t k) := rfl
      have h3 : keysA ((a, b) :: t) = a :: keysA t := rfl
      rw [h2, h3, ih, List.erase_cons, if_neg (by simpa using ha)]

theorem removeA_keys_nodup {β : Type} {l : List (α × β)} (k : α)
    (hnd : (keysA l).Nodup) : (keysA (removeA l k)).Nodup := by
  rw [keysA_removeA]
  exact hnd.erase k

theorem removeA_lookup_self {β : Type} {l : List (α × β)} {k : α}
    (hnd : (keysA l).Nodup) : lookupA (removeA l k) k = none := by
  refine lookupA_eq_none ?_
  rw [keysA_removeA]
  exact hnd.not_mem_erase

theorem costSum_cons (p : α × Nat) (t : List (α × Nat)) :
    costSum (p :: t) = p.2 + costSum t := by
  simp [costSum]

theorem costSum_append (l1 l2 : List (α × Nat)) :
    costSum (l1 ++ l2) = costSum l1 + costSum l2 := by
  simp [costSum]

theorem costSum_reverse (l : List (α × Nat)) :
    costSum l.reverse = costSum l := by
  induction l with
  | nil => rfl
  | cons p t ih =>
    rw [List.reverse_cons, costSum_append, costSum_cons, costSum_cons, ih]
    show costSum t + (p.2 + costSum []) = p.2 + costSum t
    show costSum t + (p.2 + 0) = p.2 + costSum t
    omega

theorem snd_le_costSum {l : List (α × Nat)} {x : α} {c : Nat}
    (h : (x, c) ∈ l) : c ≤ costSum l := by
  induction l with
  | nil => cases h
  | cons p t ih =>
    obtain ⟨a, b⟩ := p
    rw [costSum_cons]
    rcases List.mem_cons.1 h with heq | h
    · injection heq with h1 h2
      subst h2
      omega
    · have := ih h
      omega

theorem costSum_removeA {l : List (α × Nat)} {k : α} {c : Nat}
    (h : lookupA l k = some c) :
    costSum (removeA l k) = costSum l - c := by
  induction l with
  | nil => cases h
  | cons p t ih =>
    obtain ⟨a, b⟩ := p
    by_cases ha : a = k
    · subst ha
      have h1 : removeA ((a, b) :: t) a = t := by
        simp [removeA]
      have h2 : lookupA ((a, b) :: t) a = some b := by
        simp [lookupA]
      rw [h2] at h
      cases h
      rw [h1, costSum_cons]
      omega
    · simp only [lookupA, if_neg ha] at h
      have hle : c ≤ costSum t := snd_le_costSum (mem_of_lookupA h)
      have h1 : removeA ((a, b) :: t) k = (a, b) :: removeA t k := by
        simp [removeA, ha]
      rw [h1, costSum_cons, costSum_cons, ih h]
      omega

theorem lookupA_reverse {β : Type} {l : List (α × β)}
    (hnd : (keysA l).Nodup) (x : α) : lookupA l.reverse x = lookupA l x := by
  induction l with
  | nil => rfl
  | cons p t ih =>
    obtain ⟨a, b⟩ := p
    have hat : a ∉ keysA t := by
      intro hm
      exact (List.nodup_cons.1 hnd).1 hm
    by_cases hax : a = x
    · subst hax
      rw [show ((a, b) :: t).reverse = t.reverse ++ [(a, b)] from
        List.reverse_cons _ _]
      rw [lookupA_append_right _ (by rw [keysA_reverse]; simpa using hat)]
      simp [lookupA]
    · rw [show ((a, b) :: t).reverse = t.reverse ++ [(a, b)] from
        List.reverse_cons _ _]
      by_cases hxt : x ∈ keysA t
      · rw [lookupA_append_left _ (by rw [keysA_reverse]; simpa using hxt)]
        rw [ih (List.nodup_cons.1 hnd).2]
        simp only [lookupA, if_neg hax]
      · rw [lookupA_append_right _ (by rw [keysA_reverse]; simpa using hxt)]
        simp only [lookupA, if_neg hax]
        rw [lookupA_eq_none hxt]

theorem foldl_removeA_lookup {β : Type} (spilled : List (α × Nat))
    (items : List (α × β)) (hnd : (keysA items).Nodup) (x : α) :
    lookupA (spilled.foldl (fun it p => removeA it p.1) items) x
      = if x ∈ keysA spilled then none else lookupA items x := by
  induction spilled generalizing items with
  | nil => simp [keysA]
  | cons p t ih =>
    obtain ⟨a, c⟩ := p
    rw [List.foldl_cons]
    rw [ih (removeA items a) (removeA_keys_nodup a hnd)]
    by_cases hxt : x ∈ keysA t
    · have h1 : x ∈ keysA ((a, c) :: t) := by
        rw [keysA_cons]
        exact List.mem_cons_of_mem _ hxt
      rw [if_pos hxt, if_pos h1]
    · by_cases hxa : x = a
      · subst hxa
        have h1 : x ∈ keysA ((x, c) :: t) := by
          rw [keysA_cons]
          exact List.mem_cons_self _ _
        rw [if_neg hxt, if_pos h1, removeA_lookup_self hnd]
      · have h1 : x ∉ keysA ((a, c) :: t) := by
          rw [keysA_cons]
          intro hm
          rcases List.mem_cons.1 hm with h | h
          · exact hxa h
          · exact hxt h
        rw [if_neg hxt, if_neg h1]
        exact removeA_lookup_other hxa

theorem foldl_removeA_keys_nodup {β : Type} (spilled : List (α × Nat))
    (items : List (α × β)) (hnd : (keysA items).Nodup) :
    (keysA (spilled.foldl (fun it p => removeA it p.1) items)).Nodup := by
  induction spilled generalizing items with
  | nil => exact hnd
  | cons p t ih =>
    rw [List.foldl_cons]
    exact ih _ (removeA_keys_nodup p.1 hnd)

theorem lookupA_perm {β : Type} {l1 l2 : List (α × β)} (hp : l1.Perm l2)
    (hnd : (keysA l1).Nodup) (x : α) : lookupA l1 x = lookupA l2 x := by
  induction hp with
  | nil => rfl
  | cons p hp ih =>
    obtain ⟨a, b⟩ := p
    by_cases ha : a = x
    · simp [lookupA, ha]
    · simp only [lookupA, if_neg ha]
      exact ih (List.nodup_cons.1 hnd).2
  | swap p q l =>
    obtain ⟨a, b⟩ := p
    obtain ⟨a', b'⟩ := q
    have hne : a' ≠ a := by
      intro he
      refine (List.nodup_cons.1 hnd).1 ?_
      rw [he]
      exact List.mem_cons_self _ _
    by_cases ha : a' = x
    · have ha' : a ≠ x := fun he => hne (by rw [ha, he])
      simp [lookupA, ha, ha']
    · by_cases ha' : a = x
      · simp [lookupA, ha, ha']
      · simp [lookupA, ha, ha']
  | trans h1 h2 ih1 ih2 =>
    rw [ih1 hnd]
    refine ih2 ?_
    have : (keysA _).Perm (keysA _) := h1.map Prod.fst
    exact this.nodup_iff.1 hnd

/-! ## Lemmas about the spec-modelled map buckets -/

theorem MBucket.insert_lookup (b : MBucket α) (k : α) (c : Nat) (x : α) :
    lookupA (b.insert k c).entries x
      = if x = k then some c else lookupA b.entries x := by
  unfold MBucket.insert
  cases hl : lookupA b.entries k with
  | some cOld =>
    by_cases hx : x = k
    · subst hx
      simp [lookupA]
    · have hkx : k ≠ x := fun h => hx h.symm
      simp only [lookupA, if_neg hkx, if_neg hx]
      exact removeA_lookup_other hx
  | none =>
    by_cases hx : x = k
    · subst hx
      simp [lookupA]
    · have hkx : k ≠ x := fun h => hx h.symm
      simp only [lookupA, if_neg hkx, if_neg hx]

theorem MBucket.insert_keys_mem (b : MBucket α) (k : α) (c : Nat) (x : α) :
    x ∈ keysA (b.insert k c).entries ↔ x = k ∨ x ∈ keysA b.entries := by
  unfold MBucket.insert
  cases hl : lookupA b.entries k with
  | some cOld =>
    show x ∈ keysA ((k, c) :: removeA b.entries k) ↔ _
    rw [keysA_cons, List.mem_cons, keysA_removeA]
    constructor
    · rintro (rfl | hx)
      · exact Or.inl rfl
      · exact Or.inr (List.mem_of_mem_erase hx)
    · rintro (rfl | hx)
      · exact Or.inl rfl
      · by_cases hxk : x = k
        · exact Or.inl hxk
        · exact Or.inr ((List.mem_erase_of_ne hxk).2 hx)
  | none =>
    show x ∈ keysA ((k, c) :: b.entries) ↔ _
    rw [keysA_cons, List.mem_cons]

theorem MBucket.insert_keys_nodup (b : MBucket α) (k : α) (c : Nat)
    (hnd : (keysA b.entries).Nodup) :
    (keysA (b.insert k c).entries).Nodup := by
  unfold MBucket.insert
  cases hl : lookupA b.entries k with
  | some cOld =>
    show (keysA ((k, c) :: removeA b.entries k)).Nodup
    rw [keysA_cons]
    refine List.nodup_cons.2 ⟨?_, ?_⟩
    · rw [keysA_removeA]
      exact hnd.not_mem_erase
    · exact removeA_keys_nodup k hnd
  | none =>
    show (keysA ((k, c) :: b.entries)).Nodup
    rw [keysA_cons]
    refine List.nodup_cons.2 ⟨?_, hnd⟩
    intro hm
    rcases lookupA_isSome_of_mem hm with ⟨b', hb'⟩
    rw [hl] at hb'
    cases hb'

theorem MBucket.insert_usage_sum (b : MBucket α) (k : α) (c : Nat)
    (hu : b.usage = costSum b.entries) :
    (b.insert k c).usage = costSum (b.insert k c).entries := by
  unfold MBucket.insert
  cases hl : lookupA b.entries k with
  | some cOld =>
    have hle : cOld ≤ costSum b.entries := snd_le_costSum (mem_of_lookupA hl)
    show b.usage - cOld + c = costSum ((k, c) :: removeA b.entries k)
    rw [costSum_cons, costSum_removeA hl, hu]
    omega
  | none =>
    show b.usage + c = costSum ((k, c) :: b.entries)
    rw [costSum_cons, hu]
    omega

theorem MBucket.insert_costSum (b : MBucket α) (k : α) (c : Nat) :
    costSum (b.insert k c).entries
      = costSum b.entries - (lookupA b.entries k).getD 0 + c := by
  unfold MBucket.insert
  cases hl : lookupA b.entries k with
  | some cOld =>
    have hle : cOld ≤ costSum b.entries := snd_le_costSum (mem_of_lookupA hl)
    show costSum ((k, c) :: removeA b.entries k) = _
    rw [costSum_cons, costSum_removeA hl]
    simp
    omega
  | none =>
    show costSum ((k, c) :: b.entries) = _
    rw [costSum_cons]
    simp
    omega

theorem MBucket.remove_lookup_other (b : MBucket α) (k : α) {x : α}
    (hx : x ≠ k) :
    lookupA (b.remove k).entries x = lookupA b.entries x := by
  unfold MBucket.remove
  cases hl : lookupA b.entries k with
  | some c =>
    show lookupA (removeA b.entries k) x = _
    exact removeA_lookup_other hx
  | none => rfl

theorem MBucket.remove_lookup_self (b : MBucket α) (k : α)
    (hnd : (keysA b.entries).Nodup) :
    lookupA (b.remove k).entries k = none := by
  unfold MBucket.remove
  cases hl : lookupA b.entries k with
  | some c =>
    show lookupA (removeA b.entries k) k = none
    exact removeA_lookup_self hnd
  | none => exact hl

theorem MBucket.remove_keys_sublist (b : MBucket α) (k : α) :
    (keysA (b.remove k).entries).Sublist (keysA b.entries) := by
  unfold MBucket.remove
  cases hl : lookupA b.entries k with
  | some c =>
    show (keysA (removeA b.entries k)).Sublist _
    rw [keysA_removeA]
    exact List.erase_sublist _ _
  | none => exact List.Sublist.refl _

theorem MBucket.remove_usage_sum (b : MBucket α) (k : α)
    (hu : b.usage = costSum b.entries) :
    (b.remove k).usage = costSum (b.remove k).entries := by
  unfold MBucket.remove
  cases hl : lookupA b.entries k with
  | some c =>
    show b.usage - c = costSum (removeA b.entries k)
    rw [costSum_removeA hl, hu]
  | none => exact hu

theorem MBucket.remove_costSum (b : MBucket α) (k : α) :
    costSum (b.remove k).entries
      = costSum b.entries - (lookupA b.entries k).getD 0 := by
  unfold MBucket.remove
  cases hl : lookupA b.entries k with
  | some c =>
    show costSum (removeA b.entries k) = _
    rw [costSum_removeA hl]
    simp
  | none => simp

theorem MBucket.extend_entries_of_disjoint (b : MBucket α)
    (l : List (α × Nat)) (hd : ∀ x ∈ keysA l, x ∉ keysA b.entries)
    (hnd : (keysA l).Nodup) :
    (b.extend l).entries = l.reverse ++ b.entries := by
  induction l generalizing b with
  | nil => rfl
  | cons p t ih =>
    obtain ⟨k, c⟩ := p
    have hk : k ∉ keysA b.entries :=
      hd k (by rw [keysA_cons]; exact List.mem_cons_self _ _)
    have hl : lookupA b.entries k = none := lookupA_eq_none hk
    have hins : (b.insert k c).entries = (k, c) :: b.entries := by
      unfold MBucket.insert
      rw [hl]
    show ((b.insert k c).extend t).entries = _
    rw [keysA_cons] at hd
    rw [ih (b.insert k c) ?_ (List.nodup_cons.1 hnd).2]
    · rw [hins, List.reverse_cons, List.append_assoc]
      rfl
    · intro x hx
      rw [hins, keysA_cons]
      intro hm
      rcases List.mem_cons.1 hm with rfl | hm
      · exact (List.nodup_cons.1 hnd).1 hx
      · exact hd x (List.mem_cons_of_mem _ hx) hm

theorem MBucket.extend_usage_sum (b : MBucket α) (l : List (α × Nat))
    (hu : b.usage = costSum b.entries) :
    (b.extend l).usage = costSum (b.extend l).entries := by
  induction l generalizing b with
  | nil => exact hu
  | cons p t ih =>
    show ((b.insert p.1 p.2).extend t).usage = _
    exact ih _ (MBucket.insert_usage_sum b p.1 p.2 hu)

/-! ## Lemmas about the spec-modelled history -/

theorem MBucket.remove_absent (b : MBucket α) {k : α}
    (hk : k ∉ keysA b.entries) : b.remove k = b := by
  unfold MBucket.remove
  rw [lookupA_eq_none hk]

theorem lookupA_getD_le_costSum (l : List (α × Nat)) (k : α) :
    (lookupA l k).getD 0 ≤ costSum l := by
  cases hl : lookupA l k with
  | some c => simpa using snd_le_costSum (mem_of_lookupA hl)
  | none => simp

theorem ringEntries_append (l1 l2 : List (MBucket α)) :
    ringEntries (l1 ++ l2) = ringEntries l1 ++ ringEntries l2 := by
  induction l1 with
  | nil => rfl
  | cons b t ih =>
    show b.entries ++ ringEntries (t ++ l2)
      = (b.entries ++ ringEntries t) ++ ringEntries l2
    rw [ih, List.append_assoc]

theorem ringEntries_nodup_each {ring : List (MBucket α)}
    (hnd : (keysA (ringEntries ring)).Nodup) :
    ∀ b ∈ ring, (keysA b.entries).Nodup := by
  induction ring with
  | nil => intro b hb; cases hb
  | cons b0 t ih =>
    intro b hb
    rw [show ringEntries (b0 :: t) = b0.entries ++ ringEntries t from rfl,
      keysA_append, List.nodup_append] at hnd
    rcases List.mem_cons.1 hb with rfl | hb
    · exact hnd.1
    · exact ih hnd.2.1 b hb

theorem ring_remove_keys_sublist (ring : List (MBucket α)) (k : α) :
    (keysA (ringEntries (ring.map (fun b => b.remove k)))).Sublist
      (keysA (ringEntries ring)) := by
  induction ring with
  | nil => exact List.Sublist.refl _
  | cons b t ih =>
    show (keysA ((b.remove k).entries ++ ringEntries (t.map _))).Sublist
      (keysA (b.entries ++ ringEntries t))
    rw [keysA_append, keysA_append]
    exact (MBucket.remove_keys_sublist b k).append ih

theorem ring_remove_lookup_other (ring : List (MBucket α)) {x k : α}
    (hx : x ≠ k) :
    lookupA (ringEntries (ring.map (fun b => b.remove k))) x
      = lookupA (ringEntries ring) x := by
  induction ring with
  | nil => rfl
  | cons b t ih =>
    show lookupA ((b.remove k).entries ++ ringEntries (t.map _)) x
      = lookupA (b.entries ++ ringEntries t) x
    by_cases hb : x ∈ keysA b.entries
    · have hb' : x ∈ keysA (b.remove k).entries := by
        rcases lookupA_isSome_of_mem hb with ⟨c, hc⟩
        refine mem_keys_of_lookupA (b := c) ?_
        rw [MBucket.remove_lookup_other b k hx]
        exact hc
      rw [lookupA_append_left _ hb', lookupA_append_left _ hb]
      exact MBucket.remove_lookup_other b k hx
    · have hb' : x ∉ keysA (b.remove k).entries := fun hm =>
        hb (List.Sublist.mem hm (MBucket.remove_keys_sublist b k))
      rw [lookupA_append_right _ hb', lookupA_append_right _ hb]
      exact ih

theorem ring_remove_lookup_self (ring : List (MBucket α)) (k : α)
    (hnd : (keysA (ringEntries ring)).Nodup) :
    lookupA (ringEntries (ring.map (fun b => b.remove k))) k = none := by
  induction ring with
  | nil => rfl
  | cons b t ih =>
    rw [show ringEntries (b :: t) = b.entries ++ ringEntries t from rfl,
      keysA_append, List.nodup_append] at hnd
    show lookupA ((b.remove k).entries ++ ringEntries (t.map _)) k = none
    have hb' : k ∉ keysA (b.remove k).entries := by
      intro hm
      rcases lookupA_isSome_of_mem hm with ⟨c, hc⟩
      rw [MBucket.remove_lookup_self b k hnd.1] at hc
      cases hc
    rw [lookupA_append_right _ hb']
    exact ih hnd.2.1

theorem ring_remove_usage_sum {ring : List (MBucket α)} (k : α)
    (hu : ∀ b ∈ ring, b.usage = costSum b.entries) :
    ∀ b ∈ ring.map (fun b => b.remove k), b.usage = costSum b.entries := by
  intro b hb
  rcases List.mem_map.1 hb with ⟨b0, hb0, rfl⟩
  exact MBucket.remove_usage_sum b0 k (hu b0 hb0)

theorem ring_remove_costSum (ring : List (MBucket α)) (k : α)
    (hnd : (keysA (ringEntries ring)).Nodup) :
    costSum (ringEntries (ring.map (fun b => b.remove k)))
      = costSum (ringEntries ring)
        - (lookupA (ringEntries ring) k).getD 0 := by
  induction ring with
  | nil => rfl
  | cons b t ih =>
    rw [show ringEntries (b :: t) = b.entries ++ ringEntries t from rfl,
      keysA_append, List.nodup_append] at hnd
    show costSum ((b.remove k).entries
        ++ ringEntries (t.map (fun b => b.remove k)))
      = costSum (b.entries ++ ringEntries t)
        - (lookupA (b.entries ++ ringEntries t) k).getD 0
    rw [costSum_append, costSum_append, MBucket.remove_costSum, ih hnd.2.1]
    by_cases hb : k ∈ keysA b.entries
    · have ht : k ∉ keysA (ringEntries t) := fun hm => hnd.2.2 hb hm
      rw [lookupA_eq_none ht, lookupA_append_left _ hb]
      have := lookupA_getD_le_costSum b.entries k
      simp
      omega
    · rw [lookupA_eq_none hb, lookupA_append_right _ hb]
      have := lookupA_getD_le_costSum (ringEntries t) k
      simp
      omega

theorem hwf_decomp {h : MHistory α} (hw : HWF h) :
    (keysA h.next.entries).Nodup ∧
    (keysA (ringEntries h.ring)).Nodup ∧
    (keysA h.old.entries).Nodup ∧
    List.Disjoint (keysA h.next.entries) (keysA (ringEntries h.ring)) ∧
    List.Disjoint (keysA h.next.entries) (keysA h.old.entries) ∧
    List.Disjoint (keysA (ringEntries h.ring)) (keysA h.old.entries) := by
  have h1 := hw.1
  rw [show allEntries h
      = h.next.entries ++ (ringEntries h.ring ++ h.old.entries) from rfl,
    keysA_append, keysA_append, List.nodup_append] at h1
  obtain ⟨hn, h2, hd⟩ := h1
  rw [List.nodup_append] at h2
  obtain ⟨hr, ho, hro⟩ := h2
  refine ⟨hn, hr, ho, ?_, ?_, hro⟩
  · intro x hx hx'
    exact hd hx (List.mem_append.2 (Or.inl hx'))
  · intro x hx hx'
    exact hd hx (List.mem_append.2 (Or.inr hx'))

theorem hwf_assemble {h : MHistory α}
    (hn : (keysA h.next.entries).Nodup)
    (hr : (keysA (ringEntries h.ring)).Nodup)
    (ho : (keysA h.old.entries).Nodup)
    (hnr : List.Disjoint (keysA h.next.entries) (keysA (ringEntries h.ring)))
    (hno : List.Disjoint (keysA h.next.entries) (keysA h.old.entries))
    (hro : List.Disjoint (keysA (ringEntries h.ring)) (keysA h.old.entries))
    (hun : h.next.usage = costSum h.next.entries)
    (hur : ∀ b ∈ h.ring, b.usage = costSum b.entries)
    (huo : h.old.usage = costSum h.old.entries) : HWF h := by
  refine ⟨?_, hun, hur, huo⟩
  rw [show allEntries h
      = h.next.entries ++ (ringEntries h.ring ++ h.old.entries) from rfl,
    keysA_append, keysA_append]
  refine List.nodup_append.2 ⟨hn, List.nodup_append.2 ⟨hr, ho, hro⟩, ?_⟩
  intro x hx hm
  rcases List.mem_append.1 hm with hm | hm
  · exact hnr hx hm
  · exact hno hx hm

theorem rotate_perm {h : MHistory α} (hw : HWF h) :
    (allEntries h.rotate).Perm (allEntries h) := by
  obtain ⟨hn, hr, ho, hnr, hno, hro⟩ := hwf_decomp hw
  unfold MHistory.rotate
  split
  · split
    · rename_i hring
      simp only [allEntries, hring, ringEntries, List.append_nil,
        List.nil_append]
      show (h.next.entries ++ h.old.entries).Perm _
      exact List.Perm.refl _
    · rename_i o rest hring
      have hokeys : ∀ x ∈ keysA o.entries, x ∉ keysA h.old.entries := by
        intro x hx
        refine hro ?_
        rw [hring]
        show x ∈ keysA (o.entries ++ ringEntries rest)
        rw [keysA_append]
        exact List.mem_append.2 (Or.inl hx)
      have honodup : (keysA o.entries).Nodup := by
        have h1 := hr
        rw [hring, show ringEntries (o :: rest)
            = o.entries ++ ringEntries rest from rfl, keysA_append,
          List.nodup_append] at h1
        exact h1.1
      have hext : (h.old.extend o.entries).entries
          = o.entries.reverse ++ h.old.entries :=
        MBucket.extend_entries_of_disjoint _ _ hokeys honodup
      simp only [allEntries, hext, hring, ringEntries_append, ringEntries,
        MBucket.new, List.append_nil, List.nil_append, List.append_assoc]
      have p1 : (ringEntries rest ++ (h.next.entries
            ++ (o.entries.reverse ++ h.old.entries))).Perm
          (ringEntries rest ++ (h.next.entries
            ++ (o.entries ++ h.old.entries))) :=
        (((List.reverse_perm o.entries).append_right
          h.old.entries).append_left _).append_left _
      have p2 : (ringEntries rest ++ (h.next.entries
            ++ (o.entries ++ h.old.entries))).Perm
          (h.next.entries ++ (ringEntries rest
            ++ (o.entries ++ h.old.entries))) :=
        List.perm_append_comm_assoc _ _ _
      have p3 : (h.next.entries ++ (ringEntries rest
            ++ (o.entries ++ h.old.entries))).Perm
          (h.next.entries ++ (o.entries
            ++ (ringEntries rest ++ h.old.entries))) :=
        (List.perm_append_comm_assoc _ _ _).append_left _
      exact (p1.trans p2).trans p3
  · simp only [allEntries, ringEntries_append, ringEntries, MBucket.new,
      List.append_nil, List.nil_append, List.append_assoc]
    exact List.perm_append_comm_assoc _ _ _

theorem rotate_wf {h : MHistory α} (hw : HWF h) : HWF h.rotate := by
  refine ⟨?_, ?_, ?_, ?_⟩
  · have hp : (keysA (allEntries h.rotate)).Perm (keysA (allEntries h)) :=
      (rotate_perm hw).map Prod.fst
    exact hp.nodup_iff.2 hw.1
  · unfold MHistory.rotate
    split
    · split <;> rfl
    · rfl
  · unfold MHistory.rotate
    split
    · split
      · rename_i hring
        intro b hb
        rcases List.mem_singleton.1 hb with rfl
        exact hw.2.1
      · rename_i o rest hring
        intro b hb
        rcases List.mem_append.1 hb with hb | hb
        · exact hw.2.2.1 b (by rw [hring]; exact List.mem_cons_of_mem _ hb)
        · rcases List.mem_singleton.1 hb with rfl
          exact hw.2.1
    · intro b hb
      rcases List.mem_append.1 hb with hb | hb
      · exact hw.2.2.1 b hb
      · rcases List.mem_singleton.1 hb with rfl
        exact hw.2.1
  · unfold MHistory.rotate
    split
    · split
      · exact hw.2.2.2
      · exact MBucket.extend_usage_sum _ _ hw.2.2.2
    · exact hw.2.2.2

theorem rotate_find {h : MHistory α} (hw : HWF h) (x : α) :
    histFind h.rotate x = histFind h x :=
  lookupA_perm (rotate_perm hw) (rotate_wf hw).1 x

theorem rotate_costSum {h : MHistory α} (hw : HWF h) :
    costSum (allEntries h.rotate) = costSum (allEntries h) :=
  ((rotate_perm hw).map Prod.snd).sum_eq

theorem costSum_allEntries (h : MHistory α) :
    costSum (allEntries h) = costSum h.next.entries
      + (costSum (ringEntries h.ring) + costSum h.old.entries) := by
  show costSum (h.next.entries ++ (ringEntries h.ring ++ h.old.entries)) = _
  rw [costSum_append, costSum_append]

theorem hit_spec {h : MHistory α} (hw : HWF h) (k : α) (c : Nat) :
    HWF (h.hit k c) ∧
    (∀ x, histFind (h.hit k c) x = if x = k then some c else histFind h x) ∧
    costSum (allEntries (h.hit k c))
      = costSum (allEntries h) - (histFind h k).getD 0 + c := by
  obtain ⟨hn, hr, ho, hnr, hno, hro⟩ := hwf_decomp hw
  cases hl : lookupA h.next.entries k with
  | some cOld =>
    have heq : h.hit k c = if cOld = c then h
        else { h with next := h.next.insert k c } := by
      unfold MHistory.hit
      rw [hl]
    have hfk : histFind h k = some cOld := by
      show lookupA (h.next.entries
        ++ (ringEntries h.ring ++ h.old.entries)) k = _
      rw [lookupA_append_left _ (mem_keys_of_lookupA hl)]
      exact hl
    have hcle : cOld ≤ costSum h.next.entries :=
      snd_le_costSum (mem_of_lookupA hl)
    by_cases hceq : cOld = c
    · subst hceq
      rw [heq, if_pos rfl]
      refine ⟨hw, ?_, ?_⟩
      · intro x
        by_cases hx : x = k
        · subst hx
          rw [if_pos rfl, hfk]
        · rw [if_neg hx]
      · rw [hfk, costSum_allEntries]
        simp only [Option.getD_some]
        omega
    · rw [heq, if_neg hceq]
      refine ⟨?_, ?_, ?_⟩
      · refine hwf_assemble ?_ hr ho ?_ ?_ hro ?_ hw.2.2.1 hw.2.2.2
        · exact MBucket.insert_keys_nodup _ _ _ hn
        · intro x hx
          rcases (MBucket.insert_keys_mem h.next k c x).1 hx with rfl | hx
          · exact hnr (mem_keys_of_lookupA hl)
          · exact hnr hx
        · intro x hx
          rcases (MBucket.insert_keys_mem h.next k c x).1 hx with rfl | hx
          · exact hno (mem_keys_of_lookupA hl)
          · exact hno hx
        · exact MBucket.insert_usage_sum _ _ _ hw.2.1
      · intro x
        show lookupA ((h.next.insert k c).entries
          ++ (ringEntries h.ring ++ h.old.entries)) x = _
        by_cases hx : x = k
        · subst hx
          rw [if_pos rfl]
          have hm : x ∈ keysA (h.next.insert x c).entries :=
            (MBucket.insert_keys_mem _ _ _ _).2 (Or.inl rfl)
          rw [lookupA_append_left _ hm, MBucket.insert_lookup, if_pos rfl]
        · rw [if_neg hx]
          show _ = lookupA (h.next.entries
            ++ (ringEntries h.ring ++ h.old.entries)) x
          by_cases hxn : x ∈ keysA h.next.entries
          · have hxn' : x ∈ keysA (h.next.insert k c).entries :=
              (MBucket.insert_keys_mem _ _ _ _).2 (Or.inr hxn)
            rw [lookupA_append_left _ hxn', lookupA_append_left _ hxn,
              MBucket.insert_lookup, if_neg hx]
          · have hxn' : x ∉ keysA (h.next.insert k c).entries := by
              intro hm
              rcases (MBucket.insert_keys_mem _ _ _ _).1 hm with rfl | hm
              · exact hx rfl
              · exact hxn hm
            rw [lookupA_append_right _ hxn', lookupA_append_right _ hxn]
      · show costSum ((h.next.insert k c).entries
          ++ (ringEntries h.ring ++ h.old.entries)) = _
        rw [costSum_append, MBucket.insert_costSum, hfk, hl,
          costSum_allEntries, costSum_append]
        simp only [Option.getD_some]
        omega
  | none =>
    have heq : h.hit k c =
        (if h.maxGen ≤ (h.next.insert k c).usage then
          (digSt h k c).rotate
        else
          digSt h k c) := by
      unfold MHistory.hit digSt
      rw [hl]
    have hknext : k ∉ keysA h.next.entries := by
      intro hm
      rcases lookupA_isSome_of_mem hm with ⟨b, hb⟩
      rw [hl] at hb
      cases hb
    have hkr : k ∉ keysA (ringEntries (h.ring.map (fun b => b.remove k))) := by
      intro hm
      rcases lookupA_isSome_of_mem hm with ⟨b, hb⟩
      rw [ring_remove_lookup_self h.ring k hr] at hb
      cases hb
    have hko : k ∉ keysA (h.old.remove k).entries := by
      intro hm
      rcases lookupA_isSome_of_mem hm with ⟨b, hb⟩
      rw [MBucket.remove_lookup_self h.old k ho] at hb
      cases hb
    have hmw : HWF (digSt h k c) := by
      refine hwf_assemble (MBucket.insert_keys_nodup _ _ _ hn)
        ((ring_remove_keys_sublist h.ring k).nodup hr)
        ((MBucket.remove_keys_sublist h.old k).nodup ho)
        ?_ ?_ ?_ (MBucket.insert_usage_sum _ _ _ hw.2.1)
        (ring_remove_usage_sum k hw.2.2.1)
        (MBucket.remove_usage_sum _ _ hw.2.2.2)
      · intro x hx hx'
        rcases (MBucket.insert_keys_mem h.next k c x).1 hx with rfl | hx
        · exact hkr hx'
        · exact hnr hx ((ring_remove_keys_sublist h.ring k).mem hx')
      · intro x hx hx'
        rcases (MBucket.insert_keys_mem h.next k c x).1 hx with rfl | hx
        · exact hko hx'
        · exact hno hx ((MBucket.remove_keys_sublist h.old k).mem hx')
      · intro x hx hx'
        exact hro ((ring_remove_keys_sublist h.ring k).mem hx)
          ((MBucket.remove_keys_sublist h.old k).mem hx')
    have hmfind : ∀ x,
        histFind (digSt h k c) x
          = if x = k then some c else histFind h x := by
      intro x
      show lookupA ((h.next.insert k c).entries
        ++ (ringEntries (h.ring.map (fun b => b.remove k))
          ++ (h.old.remove k).entries)) x = _
      by_cases hx : x = k
      · subst hx
        rw [if_pos rfl]
        have hm : x ∈ keysA (h.next.insert x c).entries :=
          (MBucket.insert_keys_mem _ _ _ _).2 (Or.inl rfl)
        rw [lookupA_append_left _ hm, MBucket.insert_lookup, if_pos rfl]
      · rw [if_neg hx]
        show _ = lookupA (h.next.entries
          ++ (ringEntries h.ring ++ h.old.entries)) x
        by_cases hxn : x ∈ keysA h.next.entries
        · have hxn' : x ∈ keysA (h.next.insert k c).entries :=
            (MBucket.insert_keys_mem _ _ _ _).2 (Or.inr hxn)
          rw [lookupA_append_left _ hxn', lookupA_append_left _ hxn,
            MBucket.insert_lookup, if_neg hx]
        · have hxn' : x ∉ keysA (h.next.insert k c).entries := by
            intro hm
            rcases (MBucket.insert_keys_mem _ _ _ _).1 hm with rfl | hm
            · exact hx rfl
            · exact hxn hm
          rw [lookupA_append_right _ hxn', lookupA_append_right _ hxn]
          by_cases hxr : x ∈ keysA (ringEntries h.ring)
          · rcases lookupA_isSome_of_mem hxr with ⟨c0, hc0⟩
            have hre : lookupA (ringEntries
                (h.ring.map (fun b => b.remove k))) x
                = lookupA (ringEntries h.ring) x :=
              ring_remove_lookup_other h.ring hx
            have hxr' : x ∈ keysA (ringEntries
                (h.ring.map (fun b => b.remove k))) := by
              refine mem_keys_of_lookupA (b := c0) ?_
              rw [hre]
              exact hc0
            rw [lookupA_append_left _ hxr', lookupA_append_left _ hxr]
            exact hre
          · have hxr' : x ∉ keysA (ringEntries
                (h.ring.map (fun b => b.remove k))) := fun hm =>
              hxr ((ring_remove_keys_sublist h.ring k).mem hm)
            rw [lookupA_append_right _ hxr', lookupA_append_right _ hxr]
            exact MBucket.remove_lookup_other h.old k hx
    have hmcost : costSum (allEntries (digSt h k c))
        = costSum (allEntries h) - (histFind h k).getD 0 + c := by
      show costSum ((h.next.insert k c).entries
        ++ (ringEntries (h.ring.map (fun b => b.remove k))
          ++ (h.old.remove k).entries)) = _
      rw [costSum_append, costSum_append, MBucket.insert_costSum, hl,
        ring_remove_costSum h.ring k hr, MBucket.remove_costSum,
        costSum_allEntries]
      have hfk : histFind h k = lookupA (ringEntries h.ring
          ++ h.old.entries) k := by
        show lookupA (h.next.entries
          ++ (ringEntries h.ring ++ h.old.entries)) k = _
        rw [lookupA_append_right _ hknext]
      rw [hfk]
      by_cases hkr0 : k ∈ keysA (ringEntries h.ring)
      · have hkold : k ∉ keysA h.old.entries := fun hm => hro hkr0 hm
        rw [lookupA_append_left _ hkr0, lookupA_eq_none hkold]
        have h1 := lookupA_getD_le_costSum (ringEntries h.ring) k
        simp only [Option.getD_none]
        omega
      · rw [lookupA_append_right _ hkr0, lookupA_eq_none hkr0]
        have h1 := lookupA_getD_le_costSum h.old.entries k
        simp only [Option.getD_none]
        omega
    rw [heq]
    by_cases hthr : h.maxGen ≤ (h.next.insert k c).usage
    · rw [if_pos hthr]
      refine ⟨rotate_wf hmw, ?_, ?_⟩
      · intro x
        rw [rotate_find hmw x, hmfind x]
      · rw [rotate_costSum hmw, hmcost]
    · rw [if_neg hthr]
      exact ⟨hmw, hmfind, hmcost⟩

theorem keys_mem_iff_lookup {β : Type} (l : List (α × β)) (x : α) :
    x ∈ keysA l ↔ lookupA l x ≠ none := by
  constructor
  · intro hx
    rcases lookupA_isSome_of_mem hx with ⟨b, hb⟩
    rw [hb]
    intro h
    cases h
  · intro hx
    cases hl : lookupA l x with
    | some b => exact mem_keys_of_lookupA hl
    | none => exact absurd hl hx

theorem ring_usage_sum {ring : List (MBucket α)}
    (hu : ∀ b ∈ ring, b.usage = costSum b.entries) :
    (ring.map MBucket.usage).sum = costSum (ringEntries ring) := by
  induction ring with
  | nil => rfl
  | cons b t ih =>
    show b.usage + (t.map MBucket.usage).sum
      = costSum (b.entries ++ ringEntries t)
    rw [costSum_append, hu b (List.mem_cons_self _ _),
      ih (fun b hb => hu b (List.mem_cons_of_mem _ hb))]

theorem usage_eq {h : MHistory α} (hw : HWF h) :
    h.usage = costSum (allEntries h) := by
  rw [costSum_allEntries]
  show h.old.usage + ((h.ring.map MBucket.usage).sum + h.next.usage) = _
  rw [hw.2.1, hw.2.2.2, ring_usage_sum hw.2.2.1]
  omega

theorem remove_spec {h : MHistory α} (hw : HWF h) (k : α) :
    HWF (h.remove k) ∧
    (∀ x, histFind (h.remove k) x = if x = k then none else histFind h x) ∧
    costSum (allEntries (h.remove k))
      = costSum (allEntries h) - (histFind h k).getD 0 := by
  obtain ⟨hn, hr, ho, hnr, hno, hro⟩ := hwf_decomp hw
  refine ⟨?_, ?_, ?_⟩
  · refine hwf_assemble ((MBucket.remove_keys_sublist h.next k).nodup hn)
      ((ring_remove_keys_sublist h.ring k).nodup hr)
      ((MBucket.remove_keys_sublist h.old k).nodup ho)
      ?_ ?_ ?_ (MBucket.remove_usage_sum _ _ hw.2.1)
      (ring_remove_usage_sum k hw.2.2.1)
      (MBucket.remove_usage_sum _ _ hw.2.2.2)
    · intro x hx hx'
      exact hnr ((MBucket.remove_keys_sublist h.next k).mem hx)
        ((ring_remove_keys_sublist h.ring k).mem hx')
    · intro x hx hx'
      exact hno ((MBucket.remove_keys_sublist h.next k).mem hx)
        ((MBucket.remove_keys_sublist h.old k).mem hx')
    · intro x hx hx'
      exact hro ((ring_remove_keys_sublist h.ring k).mem hx)
        ((MBucket.remove_keys_sublist h.old k).mem hx')
  · intro x
    show lookupA ((h.next.remove k).entries
      ++ (ringEntries (h.ring.map (fun b => b.remove k))
        ++ (h.old.remove k).entries)) x = _
    by_cases hx : x = k
    · subst hx
      rw [if_pos rfl]
      have h1 : x ∉ keysA (h.next.remove x).entries := by
        rw [keys_mem_iff_lookup]
        intro hne
        exact hne (MBucket.remove_lookup_self h.next x hn)
      have h2 : x ∉ keysA (ringEntries
          (h.ring.map (fun b => b.remove x))) := by
        rw [keys_mem_iff_lookup]
        intro hne
        exact hne (ring_remove_lookup_self h.ring x hr)
      rw [lookupA_append_right _ h1, lookupA_append_right _ h2]
      exact MBucket.remove_lookup_self h.old x ho
    · rw [if_neg hx]
      show _ = lookupA (h.next.entries
        ++ (ringEntries h.ring ++ h.old.entries)) x
      have e1 : lookupA (h.next.remove k).entries x
          = lookupA h.next.entries x :=
        MBucket.remove_lookup_other h.next k hx
      have e2 : lookupA (ringEntries (h.ring.map (fun b => b.remove k))) x
          = lookupA (ringEntries h.ring) x :=
        ring_remove_lookup_other h.ring hx
      have m1 : x ∈ keysA (h.next.remove k).entries
          ↔ x ∈ keysA h.next.entries := by
        rw [keys_mem_iff_lookup, keys_mem_iff_lookup, e1]
      have m2 : x ∈ keysA (ringEntries (h.ring.map (fun b => b.remove k)))
          ↔ x ∈ keysA (ringEntries h.ring) := by
        rw [keys_mem_iff_lookup, keys_mem_iff_lookup, e2]
      by_cases hxn : x ∈ keysA h.next.entries
      · rw [lookupA_append_left _ (m1.2 hxn), lookupA_append_left _ hxn]
        exact e1
      · rw [lookupA_append_right _ (fun hm => hxn (m1.1 hm)),
          lookupA_append_right _ hxn]
        by_cases hxr : x ∈ keysA (ringEntries h.ring)
        · rw [lookupA_append_left _ (m2.2 hxr), lookupA_append_left _ hxr]
          exact e2
        · rw [lookupA_append_right _ (fun hm => hxr (m2.1 hm)),
            lookupA_append_right _ hxr]
          exact MBucket.remove_lookup_other h.old k hx
  · show costSum ((h.next.remove k).entries
      ++ (ringEntries (h.ring.map (fun b => b.remove k))
        ++ (h.old.remove k).entries)) = _
    rw [costSum_append, costSum_append, MBucket.remove_costSum,
      ring_remove_costSum h.ring k hr, MBucket.remove_costSum,
      costSum_allEntries]
    have b1 := lookupA_getD_le_costSum h.next.entries k
    have b2 := lookupA_getD_le_costSum (ringEntries h.ring) k
    have b3 := lookupA_getD_le_costSum h.old.entries k
    by_cases hkn : k ∈ keysA h.next.entries
    · have hr0 : k ∉ keysA (ringEntries h.ring) := fun hm => hnr hkn hm
      have ho0 : k ∉ keysA h.old.entries := fun hm => hno hkn hm
      have hfk : histFind h k = lookupA h.next.entries k := by
        show lookupA (h.next.entries
          ++ (ringEntries h.ring ++ h.old.entries)) k = _
        rw [lookupA_append_left _ hkn]
      rw [hfk, lookupA_eq_none hr0, lookupA_eq_none ho0]
      simp only [Option.getD_none]
      omega
    · have hfk : histFind h k = lookupA (ringEntries h.ring
          ++ h.old.entries) k := by
        show lookupA (h.next.entries
          ++ (ringEntries h.ring ++ h.old.entries)) k = _
        rw [lookupA_append_right _ hkn]
      rw [hfk, lookupA_eq_none hkn]
      by_cases hkr : k ∈ keysA (ringEntries h.ring)
      · have ho0 : k ∉ keysA h.old.entries := fun hm => hro hkr hm
        rw [lookupA_append_left _ hkr, lookupA_eq_none ho0]
        simp only [Option.getD_none]
        omega
      · rw [lookupA_append_right _ hkr, lookupA_eq_none hkr]
        simp only [Option.getD_none]
        omega

theorem spill_spec {h : MHistory α} (hw : HWF h) :
    h.spill.1 = h.old.entries ∧
    HWF h.spill.2 ∧
    (∀ x, histFind h.spill.2 x
      = if x ∈ keysA h.old.entries then none else histFind h x) ∧
    (∀ x ∈ keysA h.old.entries, histFind h x = lookupA h.old.entries x) ∧
    costSum (allEntries h.spill.2)
      = costSum (allEntries h) - costSum h.old.entries := by
  obtain ⟨hn, hr, ho, hnr, hno, hro⟩ := hwf_decomp hw
  refine ⟨rfl, ?_, ?_, ?_, ?_⟩
  · refine hwf_assemble hn hr List.nodup_nil hnr ?_ ?_ hw.2.1 hw.2.2.1 rfl
    · intro x hx hx'
      cases hx'
    · intro x hx hx'
      cases hx'
  · intro x
    show lookupA (h.next.entries
      ++ (ringEntries h.ring ++ MBucket.new.entries)) x = _
    by_cases hxo : x ∈ keysA h.old.entries
    · rw [if_pos hxo]
      have h1 : x ∉ keysA h.next.entries := fun hm => hno hm hxo
      have h2 : x ∉ keysA (ringEntries h.ring) := fun hm => hro hm hxo
      rw [lookupA_append_right _ h1, lookupA_append_right _ h2]
      rfl
    · rw [if_neg hxo]
      show _ = lookupA (h.next.entries
        ++ (ringEntries h.ring ++ h.old.entries)) x
      by_cases hxn : x ∈ keysA h.next.entries
      · rw [lookupA_append_left _ hxn, lookupA_append_left _ hxn]
      · rw [lookupA_append_right _ hxn, lookupA_append_right _ hxn]
        by_cases hxr : x ∈ keysA (ringEntries h.ring)
        · rw [lookupA_append_left _ hxr, lookupA_append_left _ hxr]
        · rw [lookupA_append_right _ hxr, lookupA_append_right _ hxr,
            lookupA_eq_none hxo]
          rfl
  · intro x hxo
    have h1 : x ∉ keysA h.next.entries := fun hm => hno hm hxo
    have h2 : x ∉ keysA (ringEntries h.ring) := fun hm => hro hm hxo
    show lookupA (h.next.entries
      ++ (ringEntries h.ring ++ h.old.entries)) x = _
    rw [lookupA_append_right _ h1, lookupA_append_right _ h2]
  · show costSum (h.next.entries
      ++ (ringEntries h.ring ++ MBucket.new.entries)) = _
    rw [costSum_append, costSum_append, costSum_allEntries]
    show _ + (_ + costSum []) = _
    rw [show costSum ([] : List (α × Nat)) = 0 from rfl]
    omega

theorem clear_spec (h : MHistory α) :
    HWF (h.clear : MHistory α) ∧ (∀ x, histFind h.clear x = none) ∧
      h.clear.usage = 0 := by
  refine ⟨⟨?_, rfl, ?_, rfl⟩, ?_, rfl⟩
  · exact List.nodup_nil
  · intro b hb
    cases hb
  · intro x
    rfl

/-! ## Lemmas about `MemCache` -/

theorem insertV_lookup (l : List (α × List Nat)) (k : α) (v : List Nat)
    (x : α) :
    lookupA (insertV l k v) x = if x = k then some v else lookupA l x := by
  show lookupA ((k, v) :: removeA l k) x = _
  by_cases hx : x = k
  · simp [lookupA, hx]
  · have hkx : k ≠ x := fun h => hx h.symm
    simp only [lookupA, if_neg hkx, if_neg hx]
    exact removeA_lookup_other hx

theorem insertV_keys_nodup (l : List (α × List Nat)) (k : α) (v : List Nat)
    (hnd : (keysA l).Nodup) : (keysA (insertV l k v)).Nodup := by
  show (keysA ((k, v) :: removeA l k)).Nodup
  rw [keysA_cons]
  refine List.nodup_cons.2 ⟨?_, removeA_keys_nodup k hnd⟩
  rw [keysA_removeA]
  exact hnd.not_mem_erase

theorem freeMemory_cases (c : MemCache α) (r : Nat) :
    (c.canStoreBytes r ∧ c.freeMemory r = (true, c)) ∨
    (¬ c.canStoreBytes r ∧ (c.freeMemory r).2 = spillSt c ∧
      ((c.freeMemory r).1 = true ↔ (spillSt c).canStoreBytes r)) := by
  unfold MemCache.freeMemory
  by_cases hcs : c.canStoreBytes r
  · rw [if_pos hcs]
    exact Or.inl ⟨hcs, rfl⟩
  · rw [if_neg hcs]
    refine Or.inr ⟨hcs, ?_, ?_⟩
    · show (if (spillSt c).canStoreBytes r then (true, spillSt c)
        else (false, spillSt c)).2 = spillSt c
      by_cases h2 : (spillSt c).canStoreBytes r
      · rw [if_pos h2]
      · rw [if_neg h2]
    · show (if (spillSt c).canStoreBytes r then (true, spillSt c)
        else (false, spillSt c)).1 = true ↔ (spillSt c).canStoreBytes r
      by_cases h2 : (spillSt c).canStoreBytes r
      · rw [if_pos h2]
        simp [h2]
      · rw [if_neg h2]
        simp [h2]

theorem spillSt_spec {c : MemCache α} (hw : MWF c) :
    MWF (spillSt c) ∧
    (∀ x, lookupA (spillSt c).items x
      = if x ∈ keysA c.history.old.entries then none
        else lookupA c.items x) ∧
    (spillSt c).usage = c.usage - costSum c.history.old.entries ∧
    (spillSt c).limit = c.limit ∧
    (spillSt c).history = c.history.spill.2 := by
  obtain ⟨hh, hnd, hcorr⟩ := hw
  obtain ⟨hsp1, hspw, hspf, hspo, hspc⟩ := spill_spec hh
  have hitems : ∀ x, lookupA (spillSt c).items x
      = if x ∈ keysA c.history.old.entries then none
        else lookupA c.items x := by
    intro x
    show lookupA (c.history.old.entries.foldl
      (fun it p => removeA it p.1) c.items) x = _
    rw [foldl_removeA_lookup _ _ hnd]
  refine ⟨⟨hspw, ?_, ?_⟩, hitems, ?_, rfl, rfl⟩
  · exact foldl_removeA_keys_nodup _ _ hnd
  · intro x
    show histFind c.history.spill.2 x = _
    rw [hspf x, hitems x]
    by_cases hxo : x ∈ keysA c.history.old.entries
    · rw [if_pos hxo, if_pos hxo]
      rfl
    · rw [if_neg hxo, if_neg hxo]
      exact hcorr x
  · show c.history.spill.2.usage = _
    rw [usage_eq hspw, hspc]
    show _ = c.history.usage - _
    rw [usage_eq hh]

theorem mwf_new (limit : Nat) : MWF (MemCache.new limit : MemCache α) := by
  refine ⟨⟨List.nodup_nil, rfl, ?_, rfl⟩, List.nodup_nil, ?_⟩
  · intro b hb
    cases hb
  · intro x
    rfl

theorem set_heq (c : MemCache α) (k : α) (v : List Nat) :
    c.set k v =
      (if (c.freeMemory (realRequired c k v)).1 then
        (StoreResult.stored,
          { (c.freeMemory (realRequired c k v)).2 with
            items := insertV (c.freeMemory (realRequired c k v)).2.items k v
            history := (c.freeMemory
              (realRequired c k v)).2.history.hit k v.length })
      else
        match lookupA (c.freeMemory (realRequired c k v)).2.items k with
        | some _ =>
          (StoreResult.outOfMemory,
            { (c.freeMemory (realRequired c k v)).2 with
              items := removeA (c.freeMemory (realRequired c k v)).2.items k
              history := (c.freeMemory
                (realRequired c k v)).2.history.remove k })
        | none =>
          (StoreResult.outOfMemory, (c.freeMemory (realRequired c k v)).2)) :=
  rfl

theorem mwf_stored_state {c1 : MemCache α} (hw : MWF c1) (k : α)
    (v : List Nat) :
    MWF { c1 with
      items := insertV c1.items k v
      history := c1.history.hit k v.length } := by
  obtain ⟨hh, hnd, hcorr⟩ := hw
  obtain ⟨hhw, hhf, -⟩ := hit_spec hh k v.length
  refine ⟨hhw, insertV_keys_nodup _ _ _ hnd, ?_⟩
  intro x
  show histFind (c1.history.hit k v.length) x
    = (lookupA (insertV c1.items k v) x).map List.length
  rw [hhf x, insertV_lookup]
  by_cases hx : x = k
  · rw [if_pos hx, if_pos hx]
    rfl
  · rw [if_neg hx, if_neg hx]
    exact hcorr x

theorem mwf_removed_state {c1 : MemCache α} (hw : MWF c1) (k : α) :
    MWF { c1 with
      items := removeA c1.items k
      history := c1.history.remove k } := by
  obtain ⟨hh, hnd, hcorr⟩ := hw
  obtain ⟨hrw, hrf, -⟩ := remove_spec hh k
  refine ⟨hrw, removeA_keys_nodup k hnd, ?_⟩
  intro x
  show histFind (c1.history.remove k) x
    = (lookupA (removeA c1.items k) x).map List.length
  rw [hrf x]
  by_cases hx : x = k
  · rw [if_pos hx, hx, removeA_lookup_self hnd]
    rfl
  · rw [if_neg hx, removeA_lookup_other hx]
    exact hcorr x

theorem mwf_set {c : MemCache α} (hw : MWF c) (k : α) (v : List Nat) :
    MWF (c.set k v).2 := by
  have hc1 : MWF (c.freeMemory (realRequired c k v)).2 := by
    rcases freeMemory_cases c (realRequired c k v) with ⟨-, heq⟩ | ⟨-, heq, -⟩
    · rw [heq]
      exact hw
    · rw [heq]
      exact (spillSt_spec hw).1
  rw [set_heq]
  by_cases hfr : (c.freeMemory (realRequired c k v)).1
  · rw [if_pos hfr]
    exact mwf_stored_state hc1 k v
  · rw [if_neg hfr]
    cases hl : lookupA (c.freeMemory (realRequired c k v)).2.items k with
    | some w => exact mwf_removed_state hc1 k
    | none => exact hc1

theorem mwf_get {c : MemCache α} (hw : MWF c) (k : α) :
    MWF (c.get k).2 := by
  unfold MemCache.get
  cases hl : lookupA c.items k with
  | some v =>
    obtain ⟨hh, hnd, hcorr⟩ := hw
    obtain ⟨hhw, hhf, -⟩ := hit_spec hh k v.length
    refine ⟨hhw, hnd, ?_⟩
    intro x
    show histFind (c.history.hit k v.length) x
      = (lookupA c.items x).map List.length
    rw [hhf x]
    by_cases hx : x = k
    · rw [if_pos hx, hx, hl]
      rfl
    · rw [if_neg hx]
      exact hcorr x
  | none => exact hw

theorem mwf_clear {c : MemCache α} (hw : MWF c) : MWF c.clear := by
  obtain ⟨hcw, hcf, -⟩ := clear_spec c.history
  refine ⟨hcw, List.nodup_nil, ?_⟩
  intro x
  show histFind c.history.clear x = (lookupA [] x).map List.length
  rw [hcf x]
  rfl

theorem mwf_step {c : MemCache α} (hw : MWF c) (op : MOp α) :
    MWF (stepM c op) := by
  cases op with
  | set k v => exact mwf_set hw k v
  | get k => exact mwf_get hw k
  | clear => exact mwf_clear hw

theorem mwf_run (limit : Nat) (ops : List (MOp α)) :
    MWF (runM limit ops : MemCache α) := by
  suffices hgen : ∀ (c0 : MemCache α), MWF c0 → MWF (ops.foldl stepM c0) by
    exact hgen _ (mwf_new limit)
  induction ops with
  | nil => exact fun c0 hw => hw
  | cons op t ih => exact fun c0 hw => ih _ (mwf_step hw op)

theorem sum_map_eq_sum_keys {β : Type} (f : β → Nat) (l : List (α × β))
    (hnd : (keysA l).Nodup) :
    (l.map (fun p => f p.2)).sum
      = ((keysA l).map (fun x => ((lookupA l x).map f).getD 0)).sum := by
  induction l with
  | nil => rfl
  | cons p t ih =>
    obtain ⟨a, b⟩ := p
    have hna : a ∉ keysA t := by
      intro hm
      exact (List.nodup_cons.1 hnd).1 hm
    have hndt : (keysA t).Nodup := (List.nodup_cons.1 hnd).2
    rw [List.map_cons, List.sum_cons, keysA_cons, List.map_cons,
      List.sum_cons]
    have hhead : lookupA ((a, b) :: t) a = some b := by
      simp [lookupA]
    have htail : (keysA t).map
        (fun x => ((lookupA ((a, b) :: t) x).map f).getD 0)
        = (keysA t).map (fun x => ((lookupA t x).map f).getD 0) := by
      refine List.map_congr_left ?_
      intro x hx
      have hax : a ≠ x := fun he => hna (he ▸ hx)
      rw [show lookupA ((a, b) :: t) x = lookupA t x from by
        simp [lookupA, hax]]
    rw [hhead, htail, ih hndt]
    rfl

theorem costSum_eq_sum_keys (l : List (α × Nat))
    (hnd : (keysA l).Nodup) :
    costSum l = ((keysA l).map (fun x => (lookupA l x).getD 0)).sum := by
  have h := sum_map_eq_sum_keys (fun n => n) l hnd
  simp only [Option.map_id'] at h
  exact h

theorem itemsSize_eq_sum_keys (l : List (α × List Nat))
    (hnd : (keysA l).Nodup) :
    itemsSize l = ((keysA l).map
      (fun x => ((lookupA l x).map List.length).getD 0)).sum :=
  sum_map_eq_sum_keys List.length l hnd

theorem mwf_usage {c : MemCache α} (hw : MWF c) :
    c.usage = itemsSize c.items := by
  obtain ⟨hh, hnd, hcorr⟩ := hw
  have h3 : (fun x => (lookupA (allEntries c.history) x).getD 0)
      = (fun x => ((lookupA c.items x).map List.length).getD 0) := by
    funext x
    rw [show lookupA (allEntries c.history) x
      = histFind c.history x from rfl, hcorr x]
  have hkeys : (keysA (allEntries c.history)).Perm (keysA c.items) := by
    refine (List.perm_ext_iff_of_nodup hh.1 hnd).2 ?_
    intro x
    rw [keys_mem_iff_lookup, keys_mem_iff_lookup,
      show lookupA (allEntries c.history) x
        = histFind c.history x from rfl, hcorr x]
    cases lookupA c.items x <;> simp
  rw [show c.usage = c.history.usage from rfl, usage_eq hh,
    costSum_eq_sum_keys _ hh.1, h3, itemsSize_eq_sum_keys c.items hnd]
  exact (hkeys.map _).sum_eq

theorem countP_keys_one {β : Type} {l : List (α × β)} {k : α}
    (hnd : (keysA l).Nodup) (hm : k ∈ keysA l) :
    l.countP (fun p => decide (p.1 = k)) = 1 := by
  induction l with
  | nil => cases hm
  | cons p t ih =>
    obtain ⟨a, b⟩ := p
    rw [List.countP_cons]
    by_cases ha : a = k
    · subst ha
      have h0 : t.countP (fun p => decide (p.1 = a)) = 0 := by
        refine List.countP_eq_zero.2 ?_
        intro p hp hpk
        have hpa : p.1 = a := by simpa using hpk
        have hma : a ∈ keysA t := by
          have h1 : p.1 ∈ keysA t := List.mem_map_of_mem Prod.fst hp
          rwa [hpa] at h1
        exact (List.nodup_cons.1 hnd).1 hma
      simp [h0]
    · have hm' : k ∈ keysA t := by
        rcases List.mem_cons.1 hm with he | hm'
        · exact absurd he.symm ha
        · exact hm'
      rw [ih (List.nodup_cons.1 hnd).2 hm']
      simp [ha]

theorem realRequired_eq (c : MemCache α) (k : α) (v : List Nat) :
    realRequired c k v
      = v.length - ((lookupA c.items k).map List.length).getD 0 := by
  unfold realRequired
  cases hl : lookupA c.items k with
  | some w =>
    show (if v.length ≤ w.length then 0 else v.length - w.length) = _
    simp only [Option.map_some', Option.getD_some]
    by_cases hle : v.length ≤ w.length
    · rw [if_pos hle]
      omega
    · rw [if_neg hle]
  | none =>
    simp

/-! ## Claim theorems about `MemCache` -/

/-- C2, confirmed (against the spec-modelled cost-carrying history that
`src/mem.rs` drives): in every reachable `MemCache` state, each stored
key has exactly one history entry, its cost is the stored value's byte
length, and the history's total usage equals the total bytes stored. -/
theorem c2_values_history_sync (limit : Nat) (ops : List (MOp α)) :
    (∀ (k : α) (v : List Nat),
      lookupA (runM limit ops : MemCache α).items k = some v →
        (allEntries (runM limit ops : MemCache α).history).countP
            (fun p => decide (p.1 = k)) = 1 ∧
        histFind (runM limit ops : MemCache α).history k
          = some v.length) ∧
    (runM limit ops : MemCache α).usage
      = itemsSize (runM limit ops : MemCache α).items := by
  obtain ⟨hh, hnd, hcorr⟩ := mwf_run (α := α) limit ops
  refine ⟨?_, mwf_usage ⟨hh, hnd, hcorr⟩⟩
  intro k v hkv
  have hfind : histFind (runM limit ops : MemCache α).history k
      = some v.length := by
    rw [hcorr k, hkv]
    rfl
  exact ⟨countP_keys_one hh.1 (mem_keys_of_lookupA hfind), hfind⟩

theorem c2_values_history_sync_witness :
    lookupA (runM 5 [MOp.set 1 [7]] : MemCache Nat).items 1 = some [7] ∧
    ((allEntries (runM 5 [MOp.set 1 [7]] : MemCache Nat).history).countP
        (fun p => decide (p.1 = 1)) = 1 ∧
      histFind (runM 5 [MOp.set 1 [7]] : MemCache Nat).history 1
        = some 1) :=
  ⟨by decide, (c2_values_history_sync 5 [MOp.set 1 [7]]).1 1 [7] (by decide)⟩

/-- C5, counterexample: an `OutOfMemory` set does not leave the value
mapping otherwise unchanged.  With limit 5, after storing the 1-byte
values of keys 1, 2, 3, key 1 has aged into the `old` band; the failing
`set` of a 6-byte value under key 4 first spills `old` — evicting key 1
from the value map — and only then reports `OutOfMemory`, so key 1's
value is gone even though it is not the failing key. -/
theorem c5_counterexample :
    ((runM 5 [MOp.set 1 [7], MOp.set 2 [7], MOp.set 3 [7]] :
        MemCache Nat).set 4 [9, 9, 9, 9, 9, 9]).1
      = StoreResult.outOfMemory ∧
    lookupA (runM 5 [MOp.set 1 [7], MOp.set 2 [7], MOp.set 3 [7]] :
      MemCache Nat).items 1 = some [7] ∧
    lookupA ((runM 5 [MOp.set 1 [7], MOp.set 2 [7], MOp.set 3 [7]] :
        MemCache Nat).set 4 [9, 9, 9, 9, 9, 9]).2.items 1 = none ∧
    (1 : Nat) ≠ 4 := by decide

/-- C5, amended: whenever `set(key, value)` returns `OutOfMemory`, no
partial insert remains and the failing key is absent; every other key
either keeps its exact previous value — this is guaranteed when it was
not in the history's `old` band — or was evicted by the spill the failed
call performed while trying to free room (keys of the `old` band). -/
theorem c5_amended (c : MemCache α) (k : α) (v : List Nat)
    (hnd : (keysA c.items).Nodup)
    (hoom : (c.set k v).1 = StoreResult.outOfMemory) :
    lookupA (c.set k v).2.items k = none ∧
    (∀ x, x ≠ k → x ∉ keysA c.history.old.entries →
      lookupA (c.set k v).2.items x = lookupA c.items x) ∧
    (∀ x, x ≠ k → x ∈ keysA c.history.old.entries →
      lookupA (c.set k v).2.items x = none) := by
  have hsp : (spillSt c).items
      = c.history.old.entries.foldl (fun it p => removeA it p.1) c.items :=
    rfl
  have hndsp : (keysA (spillSt c).items).Nodup := by
    rw [hsp]
    exact foldl_removeA_keys_nodup _ _ hnd
  have hchar : ∀ x, lookupA (spillSt c).items x
      = if x ∈ keysA c.history.old.entries then none
        else lookupA c.items x := by
    intro x
    rw [hsp]
    exact foldl_removeA_lookup _ _ hnd x
  by_cases hfr : (c.freeMemory (realRequired c k v)).1
  · exfalso
    rw [set_heq, if_pos hfr] at hoom
    simp at hoom
  · have hfq : (c.freeMemory (realRequired c k v)).2 = spillSt c := by
      rcases freeMemory_cases c (realRequired c k v) with ⟨-, hfq⟩ |
        ⟨-, hfq, -⟩
      · rw [hfq] at hfr
        exact absurd rfl hfr
      · exact hfq
    rw [set_heq, if_neg hfr, hfq]
    cases hl : lookupA (spillSt c).items k with
    | some w =>
      refine ⟨?_, ?_, ?_⟩
      · show lookupA (removeA (spillSt c).items k) k = none
        exact removeA_lookup_self hndsp
      · intro x hx hxo
        show lookupA (removeA (spillSt c).items k) x = _
        rw [removeA_lookup_other hx, hchar x, if_neg hxo]
      · intro x hx hxo
        show lookupA (removeA (spillSt c).items k) x = none
        rw [removeA_lookup_other hx, hchar x, if_pos hxo]
    | none =>
      refine ⟨hl, ?_, ?_⟩
      · intro x hx hxo
        show lookupA (spillSt c).items x = _
        rw [hchar x, if_neg hxo]
      · intro x hx hxo
        show lookupA (spillSt c).items x = none
        rw [hchar x, if_pos hxo]

theorem c5_amended_witness :
    (keysA (MemCache.new 0 : MemCache Nat).items).Nodup ∧
    ((MemCache.new 0 : MemCache Nat).set 1 [7]).1
      = StoreResult.outOfMemory ∧
    lookupA ((MemCache.new 0 : MemCache Nat).set 1 [7]).2.items 1 = none :=
  ⟨by decide, by decide,
    (c5_amended (MemCache.new 0) 1 [7] (by decide) (by decide)).1⟩

/-- C6, counterexample: a successful `set` can leave `usage() > limit()`.
With limit 5, keys 1, 2, 3 hold one byte each and key 1 has aged into
`old`.  Replacing key 1 with a 4-byte value computes the marginal cost
4 − 1 = 3 *before* freeing, then the freeing spill evicts key 1 itself;
the admission check passes on the diminished state, and after the insert
the cache reports `Stored` with usage 6 over the limit of 5. -/
theorem c6_counterexample :
    ((runM 5 [MOp.set 1 [7], MOp.set 2 [7], MOp.set 3 [7]] :
        MemCache Nat).set 1 [1, 2, 3, 4]).1 = StoreResult.stored ∧
    ((runM 5 [MOp.set 1 [7], MOp.set 2 [7], MOp.set 3 [7]] :
        MemCache Nat).set 1 [1, 2, 3, 4]).2.usage = 6 ∧
    ((runM 5 [MOp.set 1 [7], MOp.set 2 [7], MOp.set 3 [7]] :
        MemCache Nat).set 1 [1, 2, 3, 4]).2.limit = 5 ∧
    ¬ ((runM 5 [MOp.set 1 [7], MOp.set 2 [7], MOp.set 3 [7]] :
        MemCache Nat).set 1 [1, 2, 3, 4]).2.usage
      ≤ ((runM 5 [MOp.set 1 [7], MOp.set 2 [7], MOp.set 3 [7]] :
        MemCache Nat).set 1 [1, 2, 3, 4]).2.limit := by decide

theorem set_stored_free_true {c : MemCache α} {k : α} {v : List Nat}
    (hst : (c.set k v).1 = StoreResult.stored) :
    (c.freeMemory (realRequired c k v)).1 = true := by
  by_contra hfr
  rw [set_heq, if_neg hfr] at hst
  cases hl : lookupA (c.freeMemory (realRequired c k v)).2.items k with
  | some w =>
    rw [hl] at hst
    simp at hst
  | none =>
    rw [hl] at hst
    simp at hst

theorem hit_usage {h : MHistory α} (hw : HWF h) (k : α) (c : Nat) :
    (h.hit k c).usage = h.usage - (histFind h k).getD 0 + c ∧
    (histFind h k).getD 0 ≤ h.usage := by
  have h1 := usage_eq (hit_spec hw k c).1
  have h2 := (hit_spec hw k c).2.2
  have h3 := usage_eq hw
  have h4 : (histFind h k).getD 0 ≤ costSum (allEntries h) :=
    lookupA_getD_le_costSum (allEntries h) k
  constructor
  · rw [h1, h2, h3]
  · rw [h3]
    exact h4

theorem set_usage_bound {c : MemCache α} (hw : MWF c) (k : α) (v : List Nat)
    (hst : (c.set k v).1 = StoreResult.stored) :
    ((c.set k v).2.usage
      ≤ c.limit + ((lookupA c.items k).map List.length).getD 0) ∧
    (k ∉ keysA c.history.old.entries → (c.set k v).2.usage ≤ c.limit) := by
  have hfr := set_stored_free_true hst
  have hstate : (c.set k v).2 =
      { (c.freeMemory (realRequired c k v)).2 with
        items := insertV (c.freeMemory (realRequired c k v)).2.items k v
        history := (c.freeMemory
          (realRequired c k v)).2.history.hit k v.length } := by
    rw [set_heq, if_pos hfr]
  have hRe := realRequired_eq c k v
  rcases freeMemory_cases c (realRequired c k v) with ⟨hcs, hfq⟩ |
    ⟨hcs, hfq, hiff⟩
  · have hc2 : (c.freeMemory (realRequired c k v)).2 = c := by
      rw [hfq]
    rw [hstate, hc2]
    have hu : MemCache.usage { c with
        items := insertV c.items k v
        history := c.history.hit k v.length }
        = (c.history.hit k v.length).usage := rfl
    rw [hu]
    obtain ⟨heq, hle⟩ := hit_usage hw.1 k v.length
    have hfk : (histFind c.history k).getD 0
        = ((lookupA c.items k).map List.length).getD 0 := by
      rw [hw.2.2 k]
    have heq2 : (c.history.hit k v.length).usage
        = c.history.usage
          - ((lookupA c.items k).map List.length).getD 0 + v.length := by
      rw [heq, hfk]
    have hle2 : ((lookupA c.items k).map List.length).getD 0
        ≤ c.history.usage := by
      rw [← hfk]
      exact hle
    have hcs2 : c.history.usage + (v.length
        - ((lookupA c.items k).map List.length).getD 0) ≤ c.limit := by
      have h0 : c.history.usage + realRequired c k v ≤ c.limit := hcs
      rw [hRe] at h0
      exact h0
    constructor
    · rw [heq2]
      omega
    · intro hko
      rw [heq2]
      omega
  · have hcan : (spillSt c).usage + realRequired c k v ≤ c.limit :=
      hiff.1 hfr
    obtain ⟨hw1, hchar, -, -, -⟩ := spillSt_spec hw
    rw [hstate, hfq]
    have hu : MemCache.usage { spillSt c with
        items := insertV (spillSt c).items k v
        history := (spillSt c).history.hit k v.length }
        = ((spillSt c).history.hit k v.length).usage := rfl
    rw [hu]
    obtain ⟨heq, hle⟩ := hit_usage hw1.1 k v.length
    have hfk : (histFind (spillSt c).history k).getD 0
        = ((lookupA (spillSt c).items k).map List.length).getD 0 := by
      rw [hw1.2.2 k]
    have hbridge : MHistory.usage (spillSt c).history
        = (spillSt c).usage := rfl
    have hcs2 : (spillSt c).usage + (v.length
        - ((lookupA c.items k).map List.length).getD 0) ≤ c.limit := by
      have h0 := hcan
      rw [hRe] at h0
      exact h0
    by_cases hko : k ∈ keysA c.history.old.entries
    · have he1 : lookupA (spillSt c).items k = none := by
        rw [hchar k, if_pos hko]
      have heq2 : ((spillSt c).history.hit k v.length).usage
          = (spillSt c).usage + v.length := by
        rw [heq, hfk, he1, hbridge]
        simp
      constructor
      · rw [heq2]
        omega
      · intro hko'
        exact absurd hko hko'
    · have he1 : lookupA (spillSt c).items k = lookupA c.items k := by
        rw [hchar k, if_neg hko]
      have heq2 : ((spillSt c).history.hit k v.length).usage
          = (spillSt c).usage
            - ((lookupA c.items k).map List.length).getD 0 + v.length := by
        rw [heq, hfk, he1, hbridge]
      have hle2 : ((lookupA c.items k).map List.length).getD 0
          ≤ (spillSt c).usage := by
        rw [hfk, he1, hbridge] at hle
        exact hle
      constructor
      · rw [heq2]
        omega
      · intro hko'
        rw [heq2]
        omega

theorem set_limit (c : MemCache α) (k : α) (v : List Nat) :
    (c.set k v).2.limit = c.limit := by
  have hfl : (c.freeMemory (realRequired c k v)).2.limit = c.limit := by
    rcases freeMemory_cases c (realRequired c k v) with ⟨-, hfq⟩ |
      ⟨-, hfq, -⟩
    · rw [hfq]
    · rw [hfq]
      rfl
  rw [set_heq]
  by_cases hfr : (c.freeMemory (realRequired c k v)).1
  · rw [if_pos hfr]
    exact hfl
  · rw [if_neg hfr]
    cases hl : lookupA (c.freeMemory (realRequired c k v)).2.items k with
    | some w => exact hfl
    | none => exact hfl

/-- C6, amended: the marginal cost of a `set` is `max(0, new − existing)`
and replacing a key by an equal-or-smaller value never frees memory —
whenever the cache is within budget, such a replacement stores without
any spill.  But after a successful `set`, `usage() ≤ limit()` is only
guaranteed when the freeing spill did not evict the stored key itself
(in particular whenever the key was not in the `old` band); in general
the bound is `usage() ≤ limit() + existing_cost`, because the marginal
cost is computed before the spill that may evict the key's own old
entry. -/
theorem c6_amended (limit : Nat) (ops : List (MOp α)) (k : α)
    (v : List Nat) :
    (∀ w, lookupA (runM limit ops : MemCache α).items k = some w →
      v.length ≤ w.length →
      (runM limit ops : MemCache α).usage
        ≤ (runM limit ops : MemCache α).limit →
      ((runM limit ops : MemCache α).set k v).1 = StoreResult.stored ∧
      ((runM limit ops : MemCache α).set k v).2.history
        = (runM limit ops : MemCache α).history.hit k v.length ∧
      ((runM limit ops : MemCache α).set k v).2.items
        = insertV (runM limit ops : MemCache α).items k v) ∧
    (((runM limit ops : MemCache α).set k v).1 = StoreResult.stored →
      ((runM limit ops : MemCache α).set k v).2.usage
        ≤ (runM limit ops : MemCache α).limit
          + ((lookupA (runM limit ops : MemCache α).items k).map
              List.length).getD 0) ∧
    (((runM limit ops : MemCache α).set k v).1 = StoreResult.stored →
      k ∉ keysA (runM limit ops : MemCache α).history.old.entries →
      ((runM limit ops : MemCache α).set k v).2.usage
        ≤ (runM limit ops : MemCache α).limit) ∧
    ((runM limit ops : MemCache α).set k v).2.limit
      = (runM limit ops : MemCache α).limit := by
  have hw := mwf_run (α := α) limit ops
  refine ⟨?_, fun hst => (set_usage_bound hw k v hst).1,
    fun hst hko => (set_usage_bound hw k v hst).2 hko, set_limit _ _ _⟩
  intro w hlw hle husage
  have hr0 : realRequired (runM limit ops : MemCache α) k v = 0 := by
    unfold realRequired
    rw [hlw]
    show (if v.length ≤ w.length then 0 else v.length - w.length) = 0
    rw [if_pos hle]
  have hcs : (runM limit ops : MemCache α).canStoreBytes
      (realRequired (runM limit ops : MemCache α) k v) := by
    rw [hr0]
    show (runM limit ops : MemCache α).usage + 0
      ≤ (runM limit ops : MemCache α).limit
    omega
  rcases freeMemory_cases (runM limit ops : MemCache α)
      (realRequired (runM limit ops : MemCache α) k v) with ⟨-, hfq⟩ |
    ⟨hcs', -, -⟩
  · have h1 : ((runM limit ops : MemCache α).freeMemory
        (realRequired (runM limit ops : MemCache α) k v)).1 = true := by
      rw [hfq]
    rw [set_heq, if_pos h1, hfq]
    exact ⟨rfl, rfl, rfl⟩
  · exact absurd hcs hcs'

theorem c6_amended_witness :
    lookupA (runM 1000 [MOp.set 1 [7, 7]] : MemCache Nat).items 1
      = some [7, 7] ∧
    List.length [9] ≤ List.length [7, 7] ∧
    (runM 1000 [MOp.set 1 [7, 7]] : MemCache Nat).usage
      ≤ (runM 1000 [MOp.set 1 [7, 7]] : MemCache Nat).limit ∧
    ((runM 1000 [MOp.set 1 [7, 7]] : MemCache Nat).set 1 [9]).1
      = StoreResult.stored :=
  ⟨by decide, by decide, by decide,
    ((c6_amended 1000 [MOp.set 1 [7, 7]] 1 [9]).1 [7, 7] (by decide)
      (by decide) (by decide)).1⟩

end ByteCache
